import Mathlib

/-!
Shallow embedding of the sparse-matrix format-conversion and merge-based
subtraction core of the nalgebra-sparse crate (ThatGeoGuy/nalgebra fork).

Sources embedded:
  - src/nalgebra-sparse/src/convert/serial.rs   (format conversions)
  - src/nalgebra-sparse/src/ops/serial/spsub.rs (sparse-sparse subtraction)

The compressed-storage container (cs.rs), the coordinate container (coo.rs),
the offset-builder iterator (convert/utils.rs) and the error type (error.rs)
are not part of the provided sources; they are modelled from the
specification's interface contracts, constrained by their in-repository
callers and tests (see the doc comments on the corresponding definitions).

Numeric values are embedded as Int.  The coordinate-to-compressed conversion
keeps the source's genericity over the element type and the caller-supplied
combinator.  Rust's unstable sort by key is embedded as insertion sort by the
same lexicographic key order (the source leaves the relative order of
equal-key triplets unspecified; insertion sort picks one admissible order).
-/

/-- Compression strategy selecting row-major (CSR) or column-major (CSC)
orientation.  Modelled from the spec: §2 item 2, "a compile-time-selectable
policy object that, given a (row, col) pair, produces (major, minor) and vice
versa; two variants: row-major and column-major"; the trait itself lives in
the absent cs.rs.  Its projections are used by convert_coo_cs. -/
inductive Compression where
  | rowMajor
  | colMajor
deriving DecidableEq

/-- Major projection of a (row, col) pair (also maps a shape to nmajor). -/
def Compression.nmajor : Compression → Nat → Nat → Nat
  | .rowMajor, r, _ => r
  | .colMajor, _, c => c

/-- Minor projection of a (row, col) pair (also maps a shape to nminor). -/
def Compression.nminor : Compression → Nat → Nat → Nat
  | .rowMajor, _, c => c
  | .colMajor, r, _ => r

/-- Coordinate (triplet) container.  Modelled from the spec: §3 "Coordinate
entity (triplet store): nrows, ncols, and three equal-length parallel
sequences — row indices, column indices, values — in insertion order"
(coo.rs is absent from the provided sources). -/
structure CooMatrix (T : Type) where
  nrows : Nat
  ncols : Nat
  rows : List Nat
  cols : List Nat
  data : List T
deriving DecidableEq

/-- Appending a single triplet, as CooMatrix::push does. -/
def CooMatrix.push {T : Type} (coo : CooMatrix T) (i j : Nat) (v : T) : CooMatrix T :=
  { coo with rows := coo.rows ++ [i], cols := coo.cols ++ [j], data := coo.data ++ [v] }

/-- Triplets of a coordinate container in insertion order (the spec's §6
triplet-iteration contract for the coordinate container). -/
def CooMatrix.tripletList {T : Type} (coo : CooMatrix T) : List (Nat × Nat × T) :=
  coo.rows.zip (coo.cols.zip coo.data)

/-- Compressed container: shape plus the offsets / minor-index / values
arrays.  The major-axis orientation is tracked externally, exactly as the
source tracks it in the phantom type parameter of CsMatrix (cs.rs, absent
from the provided sources; the field layout is modelled from the spec §3
and fixed by the in-repository constructors convert_dense_csr /
convert_coo_cs, whose offsets arrays have one entry per major lane). -/
structure CsMatrix (T : Type) where
  nrows : Nat
  ncols : Nat
  offsets : List Nat
  indices : List Nat
  data : List T
deriving DecidableEq

/-- Number of explicitly stored entries (spec §6: shape/occupancy queries). -/
def CsMatrix.nnz {T : Type} (m : CsMatrix T) : Nat := m.data.length

/-- Upper bound of major lane k: the next offset, or nnz for the last lane.
Modelled from the spec: §3 "For each major lane k, the minor indices in the
half-open range [offsets[k], offsets[k+1])", with the convention (fixed by
the in-repository tests) that the offsets array has one entry per lane and
the final lane is capped at nnz. -/
def CsMatrix.upperOffset {T : Type} (m : CsMatrix T) (k : Nat) : Nat :=
  m.offsets.getD (k + 1) m.data.length

/-- The (minor index, value) pairs of major lane k, in storage order.
Modelled from the spec: §6 lane iteration contract. -/
def CsMatrix.lane {T : Type} (m : CsMatrix T) (k : Nat) : List (Nat × T) :=
  ((m.indices.zip m.data).drop (m.offsets.getD k 0)).take
    (m.upperOffset k - m.offsets.getD k 0)

/-- All stored triplets (major, minor, value) in ascending storage order.
Modelled from the spec: §6 "the compressed container yields (row, col,
value) in ascending (major, minor) order when read natively" — natively the
first component is the major index. -/
def CsMatrix.tripletList {T : Type} (m : CsMatrix T) : List (Nat × Nat × T) :=
  (List.range m.offsets.length).flatMap
    (fun k => (m.lane k).map (fun p => (k, p.1, p.2)))

/-- Minor-axis lane j: the (major index, value) pairs of all stored entries
whose minor index is j, ascending by major index.  Modelled from the spec:
§6 "via the lane-iteration contract when read against its minor axis"
(minor_lane_iter in the absent cs.rs). -/
def CsMatrix.minorLane {T : Type} (m : CsMatrix T) (j : Nat) : List (Nat × T) :=
  (m.tripletList.filter (fun t => t.2.1 == j)).map (fun t => (t.1, t.2.2))

/-- Flattened minor-lane triplet stream (i, j, value) where i runs over the
minor lanes 0..nminor, as built by the spsub entry points from
minor_lane_iter().enumerate().flat_map(...). -/
def minorTriplets {T : Type} (nminor : Nat) (m : CsMatrix T) : List (Nat × Nat × T) :=
  (List.range nminor).flatMap (fun i => (m.minorLane i).map (fun p => (i, p.1, p.2)))

/-- Transposition by reinterpretation: a CSR matrix viewed as the CSC matrix
of its transpose (and vice versa), sharing buffers; only the shape is
swapped.  Modelled from the spec/callers: CsMatrix::transpose lives in the
absent cs.rs; its semantics is fixed by spsub_csr_csr, which subtracts the
transposes in column-major form and transposes the result back. -/
def CsMatrix.transpose {T : Type} (m : CsMatrix T) : CsMatrix T :=
  { nrows := m.ncols, ncols := m.nrows, offsets := m.offsets,
    indices := m.indices, data := m.data }

/-- Offset builder.  Modelled from the spec: §4.1, a running prefix sum over
the per-lane occupancy counts starting at 0 (CountToOffsetIter in the absent
convert/utils.rs).  The in-repository callers and tests (convert_dense_csr,
csr_from_coo_has_expected_format) fix the output length at one offset per
count: the running total before each count is emitted, and the final total
is not appended. -/
def countToOffsetsAux (acc : Nat) : List Nat → List Nat
  | [] => []
  | c :: cs => acc :: countToOffsetsAux (acc + c) cs

/-- Offsets from per-lane counts: see countToOffsetsAux. -/
def countToOffsets (counts : List Nat) : List Nat :=
  countToOffsetsAux 0 counts

/-- Dense matrix over Int with column-major flat storage, the only interface
this core needs from the external dense collaborator (spec §6). -/
structure DenseMatrix where
  nrows : Nat
  ncols : Nat
  data : List Int
deriving DecidableEq

/-- Element read at (row i, column j) of the column-major storage. -/
def DenseMatrix.get (m : DenseMatrix) (i j : Nat) : Int :=
  m.data.getD (j * m.nrows + i) 0

/-- In-place addition into cell (row i, column j), the dense write primitive
used by the compressed/coordinate → dense conversions. -/
def DenseMatrix.addAt (m : DenseMatrix) (i j : Nat) (v : Int) : DenseMatrix :=
  { m with data := m.data.set (j * m.nrows + i) (m.data.getD (j * m.nrows + i) 0 + v) }

/-- A zero-initialized dense matrix. -/
def dzeros (nrows ncols : Nat) : DenseMatrix :=
  ⟨nrows, ncols, List.replicate (nrows * ncols) 0⟩

/-- convert_dense_coo (convert/serial.rs:18): enumerate the dense entries in
column-major order, keep the non-zeros, recovering i = index % nrows and
j = index / nrows. -/
def convert_dense_coo (dense : DenseMatrix) : CooMatrix Int :=
  let entries := dense.data.enum.filterMap (fun p =>
    if p.2 ≠ 0 then some (p.1 % dense.nrows, p.1 / dense.nrows, p.2) else none)
  { nrows := dense.nrows, ncols := dense.ncols,
    rows := entries.map (fun t => t.1),
    cols := entries.map (fun t => t.2.1),
    data := entries.map (fun t => t.2.2) }

/-- convert_coo_dense (convert/serial.rs:40): add every triplet's value into
a zero-initialized dense matrix. -/
def convert_coo_dense (coo : CooMatrix Int) : DenseMatrix :=
  coo.tripletList.foldl (fun m t => m.addAt t.1 t.2.1 t.2.2)
    (dzeros coo.nrows coo.ncols)

/-- The non-zero (column, value) pairs of dense row i, in column order. -/
def csrRowEntries (dense : DenseMatrix) (i : Nat) : List (Nat × Int) :=
  (List.range dense.ncols).filterMap (fun j =>
    if dense.get i j ≠ 0 then some (j, dense.get i j) else none)

/-- convert_dense_csr (convert/serial.rs:96): walk the dense matrix row by
row collecting non-zero columns and values; the offsets array starts with 0
and, after each row except the last, records the running entry count. -/
def convert_dense_csr (dense : DenseMatrix) : CsMatrix Int :=
  let rows := (List.range dense.nrows).map (csrRowEntries dense)
  { nrows := dense.nrows, ncols := dense.ncols,
    offsets := 0 :: (List.range (dense.nrows - 1)).map
      (fun i => ((rows.take (i + 1)).map List.length).sum),
    indices := rows.flatten.map Prod.fst,
    data := rows.flatten.map Prod.snd }

/-- convert_csc_dense (convert/serial.rs:156): add each stored triplet
(i = column, j = row, v) into cell (j, i) of a zero dense matrix. -/
def convert_csc_dense (csc : CsMatrix Int) : DenseMatrix :=
  csc.tripletList.foldl (fun m t => m.addAt t.2.1 t.1 t.2.2)
    (dzeros csc.nrows csc.ncols)

/-- The lexicographic sort key order used by convert_coo_cs: compare the
(major, minor) index pairs, ignoring the value. -/
def keyLe {T : Type} (a b : (Nat × Nat) × T) : Prop :=
  a.1.1 < b.1.1 ∨ (a.1.1 = b.1.1 ∧ a.1.2 ≤ b.1.2)

instance {T : Type} : DecidableRel (keyLe (T := T)) := fun a b => by
  unfold keyLe; infer_instance

instance {T : Type} : IsTotal ((Nat × Nat) × T) keyLe where
  total a b := by
    rcases Nat.lt_trichotomy a.1.1 b.1.1 with h | h | h
    · exact Or.inl (Or.inl h)
    · rcases Nat.le_total a.1.2 b.1.2 with h2 | h2
      · exact Or.inl (Or.inr ⟨h, h2⟩)
      · exact Or.inr (Or.inr ⟨h.symm, h2⟩)
    · exact Or.inr (Or.inl h)

instance {T : Type} : IsTrans ((Nat × Nat) × T) keyLe where
  trans a b c hab hbc := by
    rcases hab with h | ⟨he, hle⟩
    · rcases hbc with h2 | ⟨he2, _⟩
      · exact Or.inl (h.trans h2)
      · exact Or.inl (he2 ▸ h)
    · rcases hbc with h2 | ⟨he2, hle2⟩
      · exact Or.inl (he ▸ h2)
      · exact Or.inr ⟨he.trans he2, hle.trans hle2⟩

/-- State of the deduplicating walk of convert_coo_cs: the per-lane counts,
the collected minor indices and values, and the major index of the last
emitted entry. -/
structure CooCsState (T : Type) where
  counts : List Nat
  indices : List Nat
  data : List T
  iPrev : Option Nat

/-- One step of the walk (convert/serial.rs:335-359): if the current
(major, minor) pair equals that of the last emitted entry, combine the value
into the last emitted value; otherwise emit a new entry and bump the lane
count. -/
def cooCsStep {T : Type} (combinator : T → T → T) (s : CooCsState T)
    (t : (Nat × Nat) × T) : CooCsState T :=
  if s.iPrev = some t.1.1 ∧ s.indices.getLast? = some t.1.2 then
    match s.data.getLast? with
    | some prev => { s with data := s.data.dropLast ++ [combinator prev t.2] }
    | none => s
  else
    { counts := s.counts.set t.1.1 (s.counts.getD t.1.1 0 + 1),
      indices := s.indices ++ [t.1.2],
      data := s.data ++ [t.2],
      iPrev := some t.1.1 }

/-- convert_coo_cs (convert/serial.rs:282): map each (row, col) to
(major, minor) by the compression strategy, sort by that key
lexicographically, then walk the sorted triples once, combining duplicate
keys with the caller-supplied combinator, and assemble the offsets from the
per-lane counts. -/
def convert_coo_cs {T : Type} (comp : Compression) (coo : CooMatrix T)
    (combinator : T → T → T) : CsMatrix T :=
  let nmajor := comp.nmajor coo.nrows coo.ncols
  let triplets : List ((Nat × Nat) × T) :=
    ((coo.rows.zip coo.cols).map
      (fun rc => (comp.nmajor rc.1 rc.2, comp.nminor rc.1 rc.2))).zip coo.data
  let sortedTriplets := List.insertionSort keyLe triplets
  let s := sortedTriplets.foldl (cooCsStep combinator)
    ⟨List.replicate nmajor 0, [], [], none⟩
  { nrows := coo.nrows, ncols := coo.ncols,
    offsets := countToOffsets s.counts,
    indices := s.indices,
    data := s.data }

/-- convert_coo_csr (convert/serial.rs:52): coordinate to row-major
compressed, combining duplicates by addition. -/
def convert_coo_csr (coo : CooMatrix Int) : CsMatrix Int :=
  convert_coo_cs .rowMajor coo (· + ·)

/-- convert_coo_csc (convert/serial.rs:131): coordinate to column-major
compressed, combining duplicates by addition. -/
def convert_coo_csc (coo : CooMatrix Int) : CsMatrix Int :=
  convert_coo_cs .colMajor coo (· + ·)

/-- Shared body of convert_csr_csc / convert_csc_csr
(convert/serial.rs:208 and 245, two textually identical functions modulo
orientation): walk the nminor minor-axis lanes in order, count each lane,
build the offsets from the counts, and concatenate the lanes' (index, value)
pairs. -/
def transposeAlg {T : Type} (nminor : Nat) (m : CsMatrix T) : CsMatrix T :=
  let lanes := (List.range nminor).map (fun j => m.minorLane j)
  { nrows := m.nrows, ncols := m.ncols,
    offsets := countToOffsets (lanes.map List.length),
    indices := lanes.flatten.map Prod.fst,
    data := lanes.flatten.map Prod.snd }

/-- convert_csr_csc (convert/serial.rs:208): the minor axis of a CSR matrix
has ncols lanes. -/
def convert_csr_csc {T : Type} (csr : CsMatrix T) : CsMatrix T :=
  transposeAlg csr.ncols csr

/-- convert_csc_csr (convert/serial.rs:245): the minor axis of a CSC matrix
has nrows lanes. -/
def convert_csc_csr {T : Type} (csc : CsMatrix T) : CsMatrix T :=
  transposeAlg csc.nrows csc

/-- Error kinds of the sparse operations.  Modelled from the spec: §7 error
taxonomy; error.rs is absent from the provided sources, and the only kind the
embedded routines construct is InvalidPattern. -/
inductive OperationErrorKind where
  | InvalidPattern
deriving DecidableEq

/-- Operation error.  Modelled from the spec: §7 "surfaced as a recoverable
error value"; error.rs is absent from the provided sources, and the error
value is determined by its in-repository construction
OperationError::from_kind_and_message(kind, message), which carries an error
kind and a message string. -/
structure OperationError where
  kind : OperationErrorKind
  message : String
deriving DecidableEq

/-- The fixed message attached to every shape-mismatch error in spsub.rs. -/
def shapeMismatchMessage : String :=
  "The two matrices have differing shapes (both should be M × N)"

/-- TripletSubtractionIter (ops/serial/spsub.rs:466-526) as a function on the
two triplet streams: lock-step merge by lexicographic (major, minor) key;
an unmatched left entry passes through, an unmatched right entry is negated
(zero minus the value), and matched entries yield left minus right. -/
def mergeSub : List (Nat × Nat × Int) → List (Nat × Nat × Int) → List (Nat × Nat × Int)
  | [], [] => []
  | l :: ls, [] => (l.1, l.2.1, l.2.2) :: mergeSub ls []
  | [], r :: rs => (r.1, r.2.1, 0 - r.2.2) :: mergeSub [] rs
  | l :: ls, r :: rs =>
    if l.1 < r.1 ∨ (l.1 = r.1 ∧ l.2.1 < r.2.1) then
      (l.1, l.2.1, l.2.2) :: mergeSub ls (r :: rs)
    else if l.1 = r.1 ∧ l.2.1 = r.2.1 then
      (l.1, l.2.1, l.2.2 - r.2.2) :: mergeSub ls rs
    else
      (r.1, r.2.1, 0 - r.2.2) :: mergeSub (l :: ls) rs
termination_by a b => a.length + b.length

/-- The per-lane occupancy counting loop shared by the spsub entry points:
counts[i] += 1 for every merged triplet with major index i. -/
def bumpCounts {T : Type} (counts : List Nat) (trips : List (Nat × Nat × T)) : List Nat :=
  trips.foldl (fun cs t => cs.set t.1 (cs.getD t.1 0 + 1)) counts

/-- spsub_csc_csc (ops/serial/spsub.rs:171): check shapes, merge the two
native triplet streams by subtraction, then assemble the column-major result
from the per-lane counts. -/
def spsub_csc_csc (lhs rhs : CsMatrix Int) : Except OperationError (CsMatrix Int) :=
  if lhs.nrows ≠ rhs.nrows ∨ lhs.ncols ≠ rhs.ncols then
    .error ⟨.InvalidPattern, shapeMismatchMessage⟩
  else
    let trips := mergeSub lhs.tripletList rhs.tripletList
    let counts := bumpCounts (List.replicate lhs.ncols 0) trips
    .ok { nrows := lhs.nrows, ncols := lhs.ncols,
          offsets := countToOffsets counts,
          indices := trips.map (fun t => t.2.1),
          data := trips.map (fun t => t.2.2) }

/-- spsub_csr_csc (ops/serial/spsub.rs:40): check shapes, merge the CSR's
native stream against the CSC's flattened minor-lane stream, then assemble
the row-major result. -/
def spsub_csr_csc (csr csc : CsMatrix Int) : Except OperationError (CsMatrix Int) :=
  if csr.nrows ≠ csc.nrows ∨ csr.ncols ≠ csc.ncols then
    .error ⟨.InvalidPattern, shapeMismatchMessage⟩
  else
    let trips := mergeSub csr.tripletList (minorTriplets csc.nrows csc)
    let counts := bumpCounts (List.replicate csr.nrows 0) trips
    .ok { nrows := csr.nrows, ncols := csr.ncols,
          offsets := countToOffsets counts,
          indices := trips.map (fun t => t.2.1),
          data := trips.map (fun t => t.2.2) }

/-- spsub_csc_csr (ops/serial/spsub.rs:106): check shapes, merge the CSC's
native stream against the CSR's flattened minor-lane stream, then assemble
the column-major result. -/
def spsub_csc_csr (csc csr : CsMatrix Int) : Except OperationError (CsMatrix Int) :=
  if csc.nrows ≠ csr.nrows ∨ csc.ncols ≠ csr.ncols then
    .error ⟨.InvalidPattern, shapeMismatchMessage⟩
  else
    let trips := mergeSub csc.tripletList (minorTriplets csr.ncols csr)
    let counts := bumpCounts (List.replicate csc.ncols 0) trips
    .ok { nrows := csc.nrows, ncols := csc.ncols,
          offsets := countToOffsets counts,
          indices := trips.map (fun t => t.2.1),
          data := trips.map (fun t => t.2.2) }

/-- spsub_csr_csr (ops/serial/spsub.rs:233): transpose both operands,
subtract in column-major form, and transpose the result back. -/
def spsub_csr_csr (lhs rhs : CsMatrix Int) : Except OperationError (CsMatrix Int) :=
  (spsub_csc_csc lhs.transpose rhs.transpose).map CsMatrix.transpose

/-- CsrMatrix::zeros / CscMatrix::zeros: the empty compressed matrix of a
given shape, with one all-zero offset per major lane and no stored entries.
Modelled from the spec: §8 "Zero is the empty compressed matrix of that
shape" (the constructor lives in the absent cs.rs). -/
def csZeros (T : Type) (nrows ncols nmajor : Nat) : CsMatrix T :=
  ⟨nrows, ncols, List.replicate nmajor 0, [], []⟩

/-- Well-formedness of a coordinate container (spec §3): parallel sequences
of equal length, all indices within the shape. -/
def CooWf {T : Type} (coo : CooMatrix T) : Prop :=
  coo.rows.length = coo.cols.length ∧ coo.cols.length = coo.data.length ∧
  (∀ r ∈ coo.rows, r < coo.nrows) ∧ (∀ c ∈ coo.cols, c < coo.ncols)

/-- The structural invariants of a compressed container with nmajor major
lanes and minor dimension nminor, in the offsets convention the repository
actually uses (one offset per lane): the offsets array has length nmajor,
starts at 0 when nonempty, is non-decreasing and bounded by nnz; the
minor-index and value arrays have equal length; and each lane's minor
indices are strictly increasing and below nminor. -/
def CsWf {T : Type} (nmajor nminor : Nat) (m : CsMatrix T) : Prop :=
  m.offsets.length = nmajor ∧
  (m.offsets = [] ∨ m.offsets.head? = some 0) ∧
  (m.offsets = [] → m.data = []) ∧
  List.Sorted (· ≤ ·) m.offsets ∧
  (∀ o ∈ m.offsets, o ≤ m.data.length) ∧
  m.indices.length = m.data.length ∧
  (∀ k ∈ List.range nmajor,
    List.Sorted (· < ·) ((m.lane k).map Prod.fst) ∧
    ∀ p ∈ m.lane k, p.1 < nminor)

instance {T : Type} [DecidableEq T] (coo : CooMatrix T) : Decidable (CooWf coo) := by
  unfold CooWf; infer_instance

instance {T : Type} [DecidableEq T] (nmajor nminor : Nat) (m : CsMatrix T) :
    Decidable (CsWf nmajor nminor m) := by
  unfold CsWf; infer_instance

/-! ### Derived helper functions used by the verification -/

/-- The (major, minor) key of a stored triplet. -/
def tKey {T : Type} (t : Nat × Nat × T) : Nat × Nat := (t.1, t.2.1)

/-- Strict lexicographic order on (major, minor) keys. -/
def keyLt (a b : Nat × Nat) : Prop := a.1 < b.1 ∨ (a.1 = b.1 ∧ a.2 < b.2)

instance : DecidableRel keyLt := fun a b => by unfold keyLt; infer_instance

/-- Sum of the values stored at a given key by a triplet list (a triplet
list realizes the sparse matrix whose cell at key k holds this sum). -/
def sumAt (l : List (Nat × Nat × Int)) (k : Nat × Nat) : Int :=
  ((l.filter (fun t => tKey t == k)).map (fun t => t.2.2)).sum

/-- The counting fold counts[i] += 1 run over a list of major indices. -/
def bumpFold (cs : List Nat) (ms : List Nat) : List Nat :=
  ms.foldl (fun cs i => cs.set i (cs.getD i 0 + 1)) cs

/-- Per-lane occupancy counts of a major-index list, starting from n zeroed
lanes. -/
def majorCounts (n : Nat) (ms : List Nat) : List Nat :=
  bumpFold (List.replicate n 0) ms

/-- The common shape of every compressed matrix the routines assemble from a
merged triplet list: offsets from the per-lane counts, minor indices and
values as projections. -/
def csFromTriplets (T : Type) (nrows ncols nmajor : Nat)
    (trips : List (Nat × Nat × T)) : CsMatrix T :=
  { nrows := nrows, ncols := ncols,
    offsets := countToOffsets (majorCounts nmajor (trips.map (fun t => t.1))),
    indices := trips.map (fun t => t.2.1),
    data := trips.map (fun t => t.2.2) }

/-- Swapping the major and minor components of a triplet. -/
def swapKey {T : Type} (t : Nat × Nat × T) : Nat × Nat × T := (t.2.1, t.1, t.2.2)

/-- Stable regrouping of a list by a Nat-valued key bounded by K: all
elements of key 0 first, then key 1, and so on. -/
def regroupBy {α : Type} (f : α → Nat) (K : Nat) (l : List α) : List α :=
  (List.range K).flatMap (fun k => l.filter (fun x => f x == k))

/-- The emitted-entry list of the deduplicating walk of convert_coo_cs,
described at the level of whole entries: a new triplet either merges into
the last emitted entry (same key) or is appended. -/
def absorb {T : Type} (comb : T → T → T) :
    List ((Nat × Nat) × T) → List ((Nat × Nat) × T) → List ((Nat × Nat) × T)
  | P, [] => P
  | P, t :: ts =>
    match P.getLast? with
    | some last =>
      if last.1 = t.1 then absorb comb (P.dropLast ++ [(last.1, comb last.2 t.2)]) ts
      else absorb comb (P ++ [t]) ts
    | none => absorb comb (P ++ [t]) ts

/-- The walk state corresponding to an emitted-entry list. -/
def stateOf {T : Type} (nmajor : Nat) (P : List ((Nat × Nat) × T)) : CooCsState T :=
  { counts := majorCounts nmajor (P.map (fun t => t.1.1)),
    indices := P.map (fun t => t.1.2),
    data := P.map (fun t => t.2),
    iPrev := (P.getLast?).map (fun t => t.1.1) }

/-- The (major, minor) keyed triplets a coordinate container maps to under a
compression strategy, before sorting (the zip built at the top of
convert_coo_cs). -/
def cooKeyed {T : Type} (comp : Compression) (coo : CooMatrix T) :
    List ((Nat × Nat) × T) :=
  ((coo.rows.zip coo.cols).map
    (fun rc => (comp.nmajor rc.1 rc.2, comp.nminor rc.1 rc.2))).zip coo.data

/-- Regrouping a triplet list along its minor axis: for each minor index i
in 0..n, the entries with that minor index, re-keyed as (i, major, value).
This is what the minor-lane triplet stream of a compressed matrix computes
on the level of plain triplet lists. -/
def swapTriplets {T : Type} (n : Nat) (E : List (Nat × Nat × T)) : List (Nat × Nat × T) :=
  (List.range n).flatMap
    (fun i => (E.filter (fun t => t.2.1 == i)).map (fun t => (i, t.1, t.2.2)))

/-- Sum of the values a keyed pair list stores at a given key. -/
def sumAtP {T : Type} [Add T] [Zero T] (l : List ((Nat × Nat) × T)) (k : Nat × Nat) : T :=
  ((l.filter (fun p => p.1 == k)).map (fun p => p.2)).sum

/-! ### Offset-builder lemmas -/

theorem countToOffsetsAux_length (acc : Nat) (cs : List Nat) :
    (countToOffsetsAux acc cs).length = cs.length := by
  induction cs generalizing acc with
  | nil => rfl
  | cons c cs ih => simp [countToOffsetsAux, ih]

theorem countToOffsetsAux_getElem? (acc : Nat) (cs : List Nat) (k : Nat) :
    (countToOffsetsAux acc cs)[k]? =
      if k < cs.length then some (acc + (cs.take k).sum) else none := by
  induction cs generalizing acc k with
  | nil => simp [countToOffsetsAux]
  | cons c cs ih =>
    cases k with
    | zero => simp [countToOffsetsAux]
    | succ k =>
      simp [countToOffsetsAux, ih, Nat.succ_lt_succ_iff, Nat.add_assoc]

theorem countToOffsetsAux_mem_bound (acc : Nat) (cs : List Nat) :
    ∀ o ∈ countToOffsetsAux acc cs, acc ≤ o ∧ o ≤ acc + cs.sum := by
  induction cs generalizing acc with
  | nil => simp [countToOffsetsAux]
  | cons c cs ih =>
    intro o ho
    simp only [countToOffsetsAux, List.mem_cons] at ho
    rcases ho with rfl | ho
    · exact ⟨le_refl _, Nat.le_add_right _ _⟩
    · obtain ⟨h1, h2⟩ := ih (acc + c) o ho
      refine ⟨le_trans (Nat.le_add_right _ _) h1, ?_⟩
      simpa [Nat.add_assoc] using h2

theorem countToOffsetsAux_sorted (acc : Nat) (cs : List Nat) :
    List.Sorted (· ≤ ·) (countToOffsetsAux acc cs) := by
  induction cs generalizing acc with
  | nil => simp [countToOffsetsAux]
  | cons c cs ih =>
    simp only [countToOffsetsAux, List.sorted_cons]
    refine ⟨fun b hb => ?_, ih (acc + c)⟩
    exact le_trans (Nat.le_add_right acc c) (countToOffsetsAux_mem_bound _ _ b hb).1

theorem countToOffsets_length (cs : List Nat) :
    (countToOffsets cs).length = cs.length :=
  countToOffsetsAux_length 0 cs

theorem countToOffsets_getElem? (cs : List Nat) (k : Nat) :
    (countToOffsets cs)[k]? = if k < cs.length then some (cs.take k).sum else none := by
  simpa using countToOffsetsAux_getElem? 0 cs k

theorem countToOffsets_sorted (cs : List Nat) :
    List.Sorted (· ≤ ·) (countToOffsets cs) :=
  countToOffsetsAux_sorted 0 cs

theorem countToOffsets_mem_bound (cs : List Nat) :
    ∀ o ∈ countToOffsets cs, o ≤ cs.sum := by
  intro o ho
  simpa using (countToOffsetsAux_mem_bound 0 cs o ho).2

theorem countToOffsets_head (c : Nat) (cs : List Nat) :
    (countToOffsets (c :: cs)).head? = some 0 := rfl

/-! ### Counting-fold lemmas -/

theorem bumpFold_cons (cs : List Nat) (m : Nat) (ms : List Nat) :
    bumpFold cs (m :: ms) = bumpFold (cs.set m (cs.getD m 0 + 1)) ms := rfl

theorem bumpFold_length (ms cs : List Nat) : (bumpFold cs ms).length = cs.length := by
  induction ms generalizing cs with
  | nil => rfl
  | cons m ms ih => rw [bumpFold_cons, ih, List.length_set]

theorem bumpFold_getElem? (ms : List Nat) (cs : List Nat) (k : Nat) (hk : k < cs.length) :
    (bumpFold cs ms)[k]? = some (cs.getD k 0 + ms.count k) := by
  induction ms generalizing cs with
  | nil =>
    simp [bumpFold, List.getD_eq_getElem?_getD, List.getElem?_eq_getElem hk]
  | cons m ms ih =>
    rw [bumpFold_cons, ih _ (by simpa using hk)]
    congr 1
    by_cases hmk : m = k
    · subst hmk
      rw [List.getD_eq_getElem?_getD, List.getElem?_set_self hk]
      rw [List.count_cons]
      simp [List.getD_eq_getElem?_getD]
      omega
    · rw [List.getD_eq_getElem?_getD (cs.set m _), List.getElem?_set_ne hmk]
      rw [List.count_cons]
      simp [List.getD_eq_getElem?_getD, hmk]

theorem sum_set_bump (cs : List Nat) (i : Nat) :
    (cs.set i (cs.getD i 0 + 1)).sum ≤ cs.sum + 1 := by
  by_cases hi : i < cs.length
  · have hdrop : cs.drop i = cs[i] :: cs.drop (i + 1) := List.drop_eq_getElem_cons hi
    have hsum : cs.sum = (cs.take i).sum + (cs[i] + (cs.drop (i + 1)).sum) := by
      conv_lhs => rw [← List.take_append_drop i cs]
      rw [List.sum_append, hdrop, List.sum_cons]
    have hgetD : cs.getD i 0 = cs[i] := by
      rw [List.getD_eq_getElem?_getD, List.getElem?_eq_getElem hi]; rfl
    rw [List.sum_set, if_pos hi, hgetD]
    omega
  · rw [List.set_eq_of_length_le (le_of_not_lt hi)]
    exact Nat.le_add_right _ _

theorem bumpFold_sum_le (ms cs : List Nat) : (bumpFold cs ms).sum ≤ cs.sum + ms.length := by
  induction ms generalizing cs with
  | nil => simp [bumpFold]
  | cons m ms ih =>
    rw [bumpFold_cons]
    have h1 := ih (cs.set m (cs.getD m 0 + 1))
    have h2 := sum_set_bump cs m
    simp only [List.length_cons]
    omega

theorem majorCounts_length (n : Nat) (ms : List Nat) : (majorCounts n ms).length = n := by
  unfold majorCounts
  rw [bumpFold_length, List.length_replicate]

theorem majorCounts_eq_map_count (n : Nat) (ms : List Nat) :
    majorCounts n ms = (List.range n).map (fun k => ms.count k) := by
  apply List.ext_getElem?
  intro k
  by_cases hk : k < n
  · unfold majorCounts
    rw [bumpFold_getElem? _ _ _ (by simpa using hk)]
    rw [List.getElem?_map, List.getElem?_range hk]
    simp [List.getD_eq_getElem?_getD, List.getElem?_replicate, hk]
  · have h1 : (majorCounts n ms)[k]? = none := by
      rw [List.getElem?_eq_none]
      rw [majorCounts_length]
      omega
    have h2 : ((List.range n).map (fun k => ms.count k))[k]? = none := by
      rw [List.getElem?_eq_none]
      simpa using Nat.le_of_not_lt hk
    rw [h1, h2]

theorem majorCounts_sum_le (n : Nat) (ms : List Nat) :
    (majorCounts n ms).sum ≤ ms.length := by
  have := bumpFold_sum_le ms (List.replicate n 0)
  simpa [majorCounts, List.sum_replicate] using this

theorem bumpCounts_eq_bumpFold {T : Type} (cs : List Nat) (trips : List (Nat × Nat × T)) :
    bumpCounts cs trips = bumpFold cs (trips.map (fun t => t.1)) := by
  unfold bumpCounts bumpFold
  rw [List.foldl_map]

/-! ### Grouping lemmas: a list sorted by a Nat key is recovered by
concatenating its per-key filters -/

theorem flatMap_congr_mem {α β : Type} {l : List α} {f g : α → List β}
    (h : ∀ a ∈ l, f a = g a) : l.flatMap f = l.flatMap g := by
  induction l with
  | nil => rfl
  | cons a l ih =>
    rw [List.flatMap_cons, List.flatMap_cons, h a (List.mem_cons_self a l),
      ih (fun a ha => h a (List.mem_cons_of_mem _ ha))]

theorem filter_lt_append_filter_eq {α : Type} (f : α → Nat) (K : Nat) (l : List α)
    (hs : l.Pairwise (fun a b => f a ≤ f b)) (hb : ∀ x ∈ l, f x ≤ K) :
    l.filter (fun x => f x < K) ++ l.filter (fun x => f x == K) = l := by
  induction l with
  | nil => rfl
  | cons a l ih =>
    rcases List.pairwise_cons.mp hs with ⟨ha, hs'⟩
    by_cases hfa : f a < K
    · rw [List.filter_cons_of_pos (by simpa using hfa),
        List.filter_cons_of_neg (by simp; omega), List.cons_append,
        ih hs' (fun x hx => hb x (List.mem_cons_of_mem a hx))]
    · have hfaK : f a = K :=
        Nat.le_antisymm (hb a (List.mem_cons_self a l)) (Nat.le_of_not_lt hfa)
      have hall : ∀ x ∈ l, f x = K := fun x hx =>
        Nat.le_antisymm (hb x (List.mem_cons_of_mem a hx)) (hfaK ▸ ha x hx)
      have h1 : (a :: l).filter (fun x => f x < K) = [] := by
        rw [List.filter_eq_nil_iff]
        intro x hx
        rcases List.mem_cons.mp hx with rfl | hx
        · simpa using hfa
        · simp [hall x hx]
      have h2 : (a :: l).filter (fun x => f x == K) = a :: l := by
        rw [List.filter_eq_self]
        intro x hx
        rcases List.mem_cons.mp hx with rfl | hx
        · simp [hfaK]
        · simp [hall x hx]
      rw [h1, h2, List.nil_append]

theorem regroupBy_eq_self {α : Type} (f : α → Nat) (K : Nat) (l : List α)
    (hs : l.Pairwise (fun a b => f a ≤ f b)) (hb : ∀ x ∈ l, f x < K) :
    regroupBy f K l = l := by
  induction K generalizing l with
  | zero =>
    have hnil : l = [] := by
      cases l with
      | nil => rfl
      | cons a l => exact absurd (hb a (List.mem_cons_self a l)) (by omega)
    simp [regroupBy, hnil]
  | succ K ih =>
    unfold regroupBy
    rw [List.range_succ, List.flatMap_append]
    have hsub : ∀ k ∈ List.range K, l.filter (fun x => f x == k) =
        (l.filter (fun x => f x < K)).filter (fun x => f x == k) := by
      intro k hk
      rw [List.filter_filter]
      apply (List.filter_congr ?_).symm
      intro x hx
      have hkK : k < K := List.mem_range.mp hk
      by_cases h : f x = k <;> simp [h] <;> omega
    have hP : List.Pairwise (fun a b => f a ≤ f b) (l.filter (fun x => f x < K)) :=
      hs.filter _
    have hPb : ∀ x ∈ l.filter (fun x => f x < K), f x < K := by
      intro x hx
      simpa using List.of_mem_filter hx
    have hmain : (List.range K).flatMap (fun k => l.filter (fun x => f x == k)) =
        l.filter (fun x => f x < K) := by
      rw [flatMap_congr_mem hsub]
      exact ih _ hP hPb
    rw [hmain, List.flatMap_cons, List.flatMap_nil, List.append_nil]
    exact filter_lt_append_filter_eq f K l hs (fun x hx => Nat.le_of_lt_succ (hb x hx))

/-! ### Flatten-window lemmas: lane extraction from concatenated groups -/

theorem zip_map_fst_snd {α β : Type} (l : List (α × β)) :
    (l.map Prod.fst).zip (l.map Prod.snd) = l := by
  induction l with
  | nil => rfl
  | cons a l ih => simp [ih]

theorem drop_flatten_take_sum {α : Type} (gs : List (List α)) (k : Nat) :
    gs.flatten.drop (((gs.take k).map List.length).sum) = (gs.drop k).flatten := by
  induction k generalizing gs with
  | zero => simp
  | succ k ih =>
    cases gs with
    | nil => simp
    | cons g gs =>
      rw [List.take_succ_cons, List.map_cons, List.sum_cons, List.drop_succ_cons,
        List.flatten_cons, List.drop_append]
      exact ih gs

theorem take_flatten_drop {α : Type} (gs : List (List α)) (k : Nat) (hk : k < gs.length) :
    ((gs.drop k).flatten).take (gs.getD k []).length = gs.getD k [] := by
  have hdrop : gs.drop k = gs[k] :: gs.drop (k + 1) := List.drop_eq_getElem_cons hk
  have hgetD : gs.getD k [] = gs[k] := by
    rw [List.getD_eq_getElem?_getD, List.getElem?_eq_getElem hk]; rfl
  rw [hdrop, hgetD, List.flatten_cons, List.take_left]

/-! ### Reconstruction: the triplet list of a matrix assembled from
per-lane groups -/

theorem lane_mk_groups {T : Type} (nr nc : Nat) (gs : List (List (Nat × T)))
    (k : Nat) (hk : k < gs.length) :
    (CsMatrix.mk nr nc (countToOffsets (gs.map List.length))
      (gs.flatten.map Prod.fst) (gs.flatten.map Prod.snd)).lane k = gs.getD k [] := by
  unfold CsMatrix.lane CsMatrix.upperOffset
  simp only
  rw [zip_map_fst_snd]
  have hlen : (countToOffsets (gs.map List.length)).length = gs.length := by
    rw [countToOffsets_length, List.length_map]
  have hoff : (countToOffsets (gs.map List.length)).getD k 0 =
      ((gs.take k).map List.length).sum := by
    rw [List.getD_eq_getElem?_getD, countToOffsets_getElem?, if_pos (by simpa using hk),
      Option.getD_some, ← List.map_take]
  have hdatalen : (gs.flatten.map Prod.snd).length = (gs.map List.length).sum := by
    rw [List.length_map, List.length_flatten]
  have hupper : (countToOffsets (gs.map List.length)).getD (k + 1)
      (gs.flatten.map Prod.snd).length = ((gs.take (k + 1)).map List.length).sum := by
    rw [List.getD_eq_getElem?_getD, countToOffsets_getElem?]
    by_cases hk1 : k + 1 < gs.length
    · rw [if_pos (by simpa using hk1), Option.getD_some, ← List.map_take]
    · have hk1e : gs.length = k + 1 := by omega
      rw [if_neg (by simp; omega), Option.getD_none, hdatalen, ← hk1e, List.take_length]
  rw [hoff, hupper]
  have htake : ((gs.take (k + 1)).map List.length).sum =
      ((gs.take k).map List.length).sum + (gs.getD k []).length := by
    rw [List.map_take, List.map_take, List.take_succ, List.sum_append,
      List.getElem?_map, List.getElem?_eq_getElem hk]
    simp [List.getD_eq_getElem?_getD, List.getElem?_eq_getElem hk]
  rw [htake, Nat.add_sub_cancel_left, drop_flatten_take_sum, take_flatten_drop gs k hk]

theorem tripletList_mk_groups {T : Type} (nr nc : Nat) (gs : List (List (Nat × T))) :
    (CsMatrix.mk nr nc (countToOffsets (gs.map List.length))
      (gs.flatten.map Prod.fst) (gs.flatten.map Prod.snd)).tripletList =
      (List.range gs.length).flatMap
        (fun k => (gs.getD k []).map (fun p => (k, p.1, p.2))) := by
  unfold CsMatrix.tripletList
  have hlen : (countToOffsets (gs.map List.length)).length = gs.length := by
    rw [countToOffsets_length, List.length_map]
  rw [hlen]
  apply flatMap_congr_mem
  intro k hk
  rw [lane_mk_groups _ _ _ _ (List.mem_range.mp hk)]

theorem csFromTriplets_eq_mk_groups {T : Type} (nr nc nmajor : Nat)
    (trips : List (Nat × Nat × T))
    (hs : trips.Pairwise (fun a b => a.1 ≤ b.1)) (hb : ∀ t ∈ trips, t.1 < nmajor) :
    csFromTriplets T nr nc nmajor trips =
      CsMatrix.mk nr nc
        (countToOffsets (((List.range nmajor).map
          (fun k => (trips.filter (fun t => t.1 == k)).map
            (fun t => (t.2.1, t.2.2)))).map List.length))
        ((((List.range nmajor).map (fun k => (trips.filter (fun t => t.1 == k)).map
            (fun t => (t.2.1, t.2.2)))).flatten).map Prod.fst)
        ((((List.range nmajor).map (fun k => (trips.filter (fun t => t.1 == k)).map
            (fun t => (t.2.1, t.2.2)))).flatten).map Prod.snd) := by
  have hre : (List.range nmajor).flatMap
      (fun k => trips.filter (fun t => t.1 == k)) = trips := by
    have h := regroupBy_eq_self (fun t : Nat × Nat × T => t.1) nmajor trips hs hb
    simpa [regroupBy] using h
  have hcounts : majorCounts nmajor (trips.map (fun t => t.1)) =
      ((List.range nmajor).map (fun k => (trips.filter (fun t => t.1 == k)).map
        (fun t => (t.2.1, t.2.2)))).map List.length := by
    rw [majorCounts_eq_map_count, List.map_map]
    apply List.map_congr_left
    intro k hk
    simp only [Function.comp]
    rw [List.count_eq_countP, List.countP_map, List.length_map,
      List.countP_eq_length_filter]
    rfl
  have hflat : ((List.range nmajor).map (fun k => (trips.filter (fun t => t.1 == k)).map
      (fun t => (t.2.1, t.2.2)))).flatten = trips.map (fun t => (t.2.1, t.2.2)) := by
    rw [List.flatten_eq_flatMap, List.flatMap_map]
    simp only [id]
    rw [← List.map_flatMap, hre]
  unfold csFromTriplets
  rw [hcounts, hflat]
  simp only [List.map_map]
  rfl

theorem lane_csFromTriplets {T : Type} (nr nc nmajor : Nat)
    (trips : List (Nat × Nat × T))
    (hs : trips.Pairwise (fun a b => a.1 ≤ b.1)) (hb : ∀ t ∈ trips, t.1 < nmajor)
    (k : Nat) (hk : k < nmajor) :
    (csFromTriplets T nr nc nmajor trips).lane k =
      (trips.filter (fun t => t.1 == k)).map (fun t => (t.2.1, t.2.2)) := by
  rw [csFromTriplets_eq_mk_groups nr nc nmajor trips hs hb,
    lane_mk_groups _ _ _ _ (by simpa using hk)]
  rw [List.getD_eq_getElem?_getD, List.getElem?_map, List.getElem?_range hk]
  rfl

theorem tripletList_csFromTriplets {T : Type} (nr nc nmajor : Nat)
    (trips : List (Nat × Nat × T))
    (hs : trips.Pairwise (fun a b => a.1 ≤ b.1)) (hb : ∀ t ∈ trips, t.1 < nmajor) :
    (csFromTriplets T nr nc nmajor trips).tripletList = trips := by
  rw [csFromTriplets_eq_mk_groups nr nc nmajor trips hs hb, tripletList_mk_groups]
  have hglen : ((List.range nmajor).map (fun k => (trips.filter (fun t => t.1 == k)).map
      (fun t => (t.2.1, t.2.2)))).length = nmajor := by simp
  rw [hglen]
  have hstep : ∀ k ∈ List.range nmajor,
      ((((List.range nmajor).map (fun j => (trips.filter (fun t => t.1 == j)).map
        (fun t => (t.2.1, t.2.2)))).getD k []).map (fun p => (k, p.1, p.2))) =
        trips.filter (fun t => t.1 == k) := by
    intro k hk
    have hk' : k < nmajor := List.mem_range.mp hk
    have hgetD : ((List.range nmajor).map (fun j => (trips.filter (fun t => t.1 == j)).map
        (fun t => (t.2.1, t.2.2)))).getD k [] =
        (trips.filter (fun t => t.1 == k)).map (fun t => (t.2.1, t.2.2)) := by
      rw [List.getD_eq_getElem?_getD, List.getElem?_map, List.getElem?_range hk']
      rfl
    rw [hgetD, List.map_map]
    have hid : ∀ t ∈ trips.filter (fun t => t.1 == k),
        ((fun p : Nat × T => (k, p.1, p.2)) ∘ (fun t : Nat × Nat × T => (t.2.1, t.2.2))) t
          = id t := by
      intro t ht
      have htk : t.1 = k := by simpa using List.of_mem_filter ht
      simp [Function.comp, ← htk]
    rw [List.map_congr_left hid, List.map_id]
  rw [flatMap_congr_mem hstep]
  have h := regroupBy_eq_self (fun t : Nat × Nat × T => t.1) nmajor trips hs hb
  simpa [regroupBy] using h

theorem csWf_csFromTriplets {T : Type} (nr nc nmajor nminor : Nat)
    (trips : List (Nat × Nat × T))
    (hs : trips.Pairwise (fun a b => keyLt (tKey a) (tKey b)))
    (hbmaj : ∀ t ∈ trips, t.1 < nmajor) (hbmin : ∀ t ∈ trips, t.2.1 < nminor) :
    CsWf nmajor nminor (csFromTriplets T nr nc nmajor trips) := by
  have hsle : trips.Pairwise (fun a b => a.1 ≤ b.1) := by
    refine hs.imp ?_
    intro a b hab
    rcases hab with h | ⟨h, _⟩
    · exact le_of_lt h
    · exact le_of_eq h
  have hclen : (majorCounts nmajor (trips.map (fun t => t.1))).length = nmajor :=
    majorCounts_length _ _
  refine ⟨?_, ?_, ?_, ?_, ?_, ?_, ?_⟩
  · show (countToOffsets _).length = nmajor
    rw [countToOffsets_length, hclen]
  · cases hmc : majorCounts nmajor (trips.map (fun t => t.1)) with
    | nil => exact Or.inl (by simp [csFromTriplets, hmc, countToOffsets, countToOffsetsAux])
    | cons c cs => exact Or.inr (by simp [csFromTriplets, hmc, countToOffsets_head])
  · intro hoff
    have h0 : nmajor = 0 := by
      have := countToOffsets_length (majorCounts nmajor (trips.map (fun t => t.1)))
      simp only [csFromTriplets] at hoff
      rw [hoff] at this
      simp only [List.length_nil] at this
      omega
    have htnil : trips = [] := by
      cases trips with
      | nil => rfl
      | cons t ts => exact absurd (hbmaj t (List.mem_cons_self t ts)) (by omega)
    simp [csFromTriplets, htnil]
  · exact countToOffsets_sorted _
  · intro o ho
    have h1 := countToOffsets_mem_bound _ o ho
    have h2 := majorCounts_sum_le nmajor (trips.map (fun t => t.1))
    show o ≤ (trips.map (fun t => t.2.2)).length
    rw [List.length_map]
    rw [List.length_map] at h2
    omega
  · show (trips.map (fun t => t.2.1)).length = (trips.map (fun t => t.2.2)).length
    rw [List.length_map, List.length_map]
  · intro k hk
    have hk' : k < nmajor := List.mem_range.mp hk
    rw [lane_csFromTriplets nr nc nmajor trips hsle hbmaj k hk']
    constructor
    · rw [List.map_map]
      refine List.pairwise_map.mpr ?_
      have hfil : (trips.filter (fun t => t.1 == k)).Pairwise
          (fun a b => keyLt (tKey a) (tKey b)) := hs.filter _
      refine List.Pairwise.imp_of_mem ?_ hfil
      intro a b ha hb hab
      have hak : a.1 = k := by simpa using List.of_mem_filter ha
      have hbk : b.1 = k := by simpa using List.of_mem_filter hb
      rcases hab with h | ⟨_, h⟩
      · exfalso
        unfold tKey at h
        omega
      · exact h
    · intro p hp
      rw [List.mem_map] at hp
      obtain ⟨t, ht, rfl⟩ := hp
      exact hbmin t (List.mem_of_mem_filter ht)

/-! ### Basic facts about the triplet list of an arbitrary compressed
matrix -/

theorem tripletList_major_lt {T : Type} (m : CsMatrix T) :
    ∀ t ∈ m.tripletList, t.1 < m.offsets.length := by
  intro t ht
  unfold CsMatrix.tripletList at ht
  rw [List.mem_flatMap] at ht
  obtain ⟨k, hk, ht⟩ := ht
  rw [List.mem_map] at ht
  obtain ⟨p, _, rfl⟩ := ht
  exact List.mem_range.mp hk

theorem pairwise_flatMap_blocks {β : Type} (n : Nat) (g : Nat → List β)
    (key : β → Nat) (hkey : ∀ k, ∀ x ∈ g k, key x = k) :
    ((List.range n).flatMap g).Pairwise (fun a b => key a ≤ key b) := by
  induction n with
  | zero => simp
  | succ n ih =>
    rw [List.range_succ, List.flatMap_append, List.pairwise_append]
    refine ⟨ih, ?_, ?_⟩
    · simp only [List.flatMap_cons, List.flatMap_nil, List.append_nil]
      apply List.pairwise_of_forall_mem_list
      intro a ha b hb
      rw [hkey n a ha, hkey n b hb]
    · intro a ha b hb
      simp only [List.flatMap_cons, List.flatMap_nil, List.append_nil] at hb
      rw [List.mem_flatMap] at ha
      obtain ⟨j, hj, ha⟩ := ha
      rw [hkey j a ha, hkey n b hb]
      exact Nat.le_of_lt (List.mem_range.mp hj)

theorem tripletList_major_pairwise_le {T : Type} (m : CsMatrix T) :
    m.tripletList.Pairwise (fun a b => a.1 ≤ b.1) := by
  unfold CsMatrix.tripletList
  apply pairwise_flatMap_blocks
  intro k x hx
  rw [List.mem_map] at hx
  obtain ⟨p, _, rfl⟩ := hx
  rfl

theorem flatMap_range_single {β : Type} (n k : Nat) (g : Nat → List β) (hk : k < n)
    (hz : ∀ j, j ≠ k → g j = []) : (List.range n).flatMap g = g k := by
  induction n with
  | zero => omega
  | succ n ih =>
    rw [List.range_succ, List.flatMap_append, List.flatMap_cons, List.flatMap_nil,
      List.append_nil]
    by_cases hkn : k = n
    · subst hkn
      have : (List.range k).flatMap g = [] := by
        rw [List.flatMap_eq_nil_iff]
        intro j hj
        exact hz j (by have := List.mem_range.mp hj; omega)
      rw [this, List.nil_append]
    · rw [ih (by omega), hz n (by omega), List.append_nil]

theorem filter_tripletList_major {T : Type} (m : CsMatrix T) (k : Nat)
    (hk : k < m.offsets.length) :
    m.tripletList.filter (fun t => t.1 == k) =
      (m.lane k).map (fun p => (k, p.1, p.2)) := by
  unfold CsMatrix.tripletList
  rw [List.filter_flatMap]
  rw [flatMap_range_single m.offsets.length k _ hk]
  · rw [List.filter_eq_self.mpr]
    intro t ht
    rw [List.mem_map] at ht
    obtain ⟨p, _, rfl⟩ := ht
    simp
  · intro j hj
    rw [List.filter_eq_nil_iff]
    intro t ht
    rw [List.mem_map] at ht
    obtain ⟨p, _, rfl⟩ := ht
    simp [hj]

/-! ### A well-formed compressed matrix is determined by its triplet list -/

theorem flatMap_windows {β : Type} (os : List Nat) (Z : List β)
    (hs : List.Sorted (· ≤ ·) os) (hb : ∀ o ∈ os, o ≤ Z.length) :
    (List.range os.length).flatMap
      (fun k => (Z.drop (os.getD k 0)).take (os.getD (k + 1) Z.length - os.getD k 0)) =
      Z.drop (os.headD Z.length) := by
  induction os generalizing Z with
  | nil => simp
  | cons o rest ih =>
    have hle : o ≤ rest.headD Z.length := by
      cases rest with
      | nil => exact hb o (List.mem_cons_self o [])
      | cons r rs => exact (List.sorted_cons.mp hs).1 r (List.mem_cons_self r rs)
    have hub : rest.headD Z.length ≤ Z.length := by
      cases rest with
      | nil => exact le_refl _
      | cons r rs => exact hb r (List.mem_cons_of_mem o (List.mem_cons_self r rs))
    simp only [List.length_cons]
    rw [List.range_succ_eq_map, List.flatMap_cons, List.flatMap_map]
    have hrest : ((List.range rest.length).flatMap fun k =>
        (Z.drop ((o :: rest).getD (Nat.succ k) 0)).take
          ((o :: rest).getD (Nat.succ k + 1) Z.length - (o :: rest).getD (Nat.succ k) 0)) =
        Z.drop (rest.headD Z.length) := by
      have heq : ∀ k ∈ List.range rest.length,
          ((Z.drop ((o :: rest).getD (Nat.succ k) 0)).take
            ((o :: rest).getD (Nat.succ k + 1) Z.length - (o :: rest).getD (Nat.succ k) 0)) =
          ((Z.drop (rest.getD k 0)).take (rest.getD (k + 1) Z.length - rest.getD k 0)) := by
        intro k hk
        rw [List.getD_cons_succ, List.getD_cons_succ]
      rw [flatMap_congr_mem heq]
      exact ih Z (List.sorted_cons.mp hs).2 (fun x hx => hb x (List.mem_cons_of_mem o hx))
    rw [hrest]
    simp only [List.getD_cons_zero, List.getD_cons_succ]
    have hgetD1 : rest.getD 0 Z.length = rest.headD Z.length := by
      cases rest <;> rfl
    rw [hgetD1]
    have hdropdrop : Z.drop (rest.headD Z.length) =
        (Z.drop o).drop (rest.headD Z.length - o) := by
      rw [List.drop_drop, Nat.add_sub_cancel' hle]
    rw [hdropdrop, List.take_append_drop]
    rfl

theorem lane_length_eq {T : Type} (m : CsMatrix T)
    (hlen : m.indices.length = m.data.length)
    (hb : ∀ o ∈ m.offsets, o ≤ m.data.length) (k : Nat) :
    (m.lane k).length = m.upperOffset k - m.offsets.getD k 0 := by
  unfold CsMatrix.lane
  rw [List.length_take, List.length_drop, List.length_zip, hlen, Nat.min_self]
  have hub : m.upperOffset k ≤ m.data.length := by
    unfold CsMatrix.upperOffset
    rw [List.getD_eq_getElem?_getD]
    cases hoe : m.offsets[k + 1]? with
    | none => simp
    | some o =>
      simp only [Option.getD_some]
      exact hb o (List.getElem?_mem hoe)
  omega

theorem tiling_flatMap_lane {T : Type} (m : CsMatrix T)
    (hlen : m.indices.length = m.data.length)
    (hhead : m.offsets = [] ∨ m.offsets.head? = some 0)
    (hnil : m.offsets = [] → m.data = [])
    (hs : List.Sorted (· ≤ ·) m.offsets)
    (hb : ∀ o ∈ m.offsets, o ≤ m.data.length) :
    (List.range m.offsets.length).flatMap m.lane = m.indices.zip m.data := by
  have hZlen : (m.indices.zip m.data).length = m.data.length := by
    rw [List.length_zip, hlen, Nat.min_self]
  have hb' : ∀ o ∈ m.offsets, o ≤ (m.indices.zip m.data).length := by
    rw [hZlen]; exact hb
  have hwin := flatMap_windows m.offsets (m.indices.zip m.data) hs hb'
  have hlane : ∀ k ∈ List.range m.offsets.length,
      m.lane k = ((m.indices.zip m.data).drop (m.offsets.getD k 0)).take
        (m.offsets.getD (k + 1) (m.indices.zip m.data).length - m.offsets.getD k 0) := by
    intro k _
    unfold CsMatrix.lane CsMatrix.upperOffset
    rw [hZlen]
  rw [flatMap_congr_mem hlane, hwin]
  rcases hhead with h | h
  · have hd : m.data = [] := hnil h
    have hi : m.indices = [] := List.eq_nil_of_length_eq_zero (by rw [hlen, hd]; rfl)
    simp [h, hi, hd]
  · rw [List.headD_eq_head?_getD, h]
    simp

theorem countToOffsetsAux_diffs (os : List Nat) :
    ∀ (acc top : Nat), List.Sorted (· ≤ ·) (acc :: os) → (∀ o ∈ acc :: os, o ≤ top) →
    countToOffsetsAux acc ((List.range (os.length + 1)).map
      (fun k => (acc :: os).getD (k + 1) top - (acc :: os).getD k 0)) = acc :: os := by
  induction os with
  | nil =>
    intro acc top _ _
    simp [countToOffsetsAux]
  | cons o rest ih =>
    intro acc top hs hb
    rw [List.range_succ_eq_map, List.map_cons, List.map_map]
    have hfirst : (acc :: o :: rest).getD 1 top - (acc :: o :: rest).getD 0 0 = o - acc := by
      simp
    rw [hfirst]
    show acc :: countToOffsetsAux (acc + (o - acc)) _ = _
    have hacco : acc ≤ o := (List.sorted_cons.mp hs).1 o (List.mem_cons_self o rest)
    rw [Nat.add_sub_cancel' hacco]
    simp only [List.length_cons]
    have hmapeq : (List.range (rest.length + 1)).map
        ((fun k => (acc :: o :: rest).getD (k + 1) top - (acc :: o :: rest).getD k 0)
          ∘ Nat.succ) =
        (List.range (rest.length + 1)).map
        (fun k => (o :: rest).getD (k + 1) top - (o :: rest).getD k 0) := by
      apply List.map_congr_left
      intro k _
      simp only [Function.comp, Nat.succ_eq_add_one, List.getD_cons_succ]
    rw [hmapeq, ih o top (List.sorted_cons.mp hs).2
      (fun x hx => hb x (List.mem_cons_of_mem acc hx))]

theorem offsets_eq_countToOffsets_laneLengths {T : Type} (m : CsMatrix T)
    (hlen : m.indices.length = m.data.length)
    (hhead : m.offsets = [] ∨ m.offsets.head? = some 0)
    (hs : List.Sorted (· ≤ ·) m.offsets)
    (hb : ∀ o ∈ m.offsets, o ≤ m.data.length) :
    countToOffsets ((List.range m.offsets.length).map (fun k => (m.lane k).length)) =
      m.offsets := by
  have hmap : (List.range m.offsets.length).map (fun k => (m.lane k).length) =
      (List.range m.offsets.length).map
        (fun k => m.offsets.getD (k + 1) m.data.length - m.offsets.getD k 0) := by
    apply List.map_congr_left
    intro k _
    rw [lane_length_eq m hlen hb k]
    rfl
  rw [hmap]
  rcases hhead with h | h
  · rw [h]
    rfl
  · obtain ⟨rest, hos⟩ : ∃ rest, m.offsets = 0 :: rest := by
      cases hos2 : m.offsets with
      | nil =>
        rw [hos2] at h
        simp at h
      | cons a rest =>
        rw [hos2] at h
        simp only [List.head?_cons, Option.some.injEq] at h
        exact ⟨rest, by subst h; rfl⟩
    rw [hos] at hs hb ⊢
    unfold countToOffsets
    simpa using countToOffsetsAux_diffs rest 0 m.data.length hs hb

theorem csFromTriplets_rep {T : Type} (nmajor nminor : Nat) (m : CsMatrix T)
    (hwf : CsWf nmajor nminor m) :
    csFromTriplets T m.nrows m.ncols nmajor m.tripletList = m := by
  obtain ⟨hlen0, hhead, hnil, hs, hb, hlen, hlanes⟩ := hwf
  have htile := tiling_flatMap_lane m hlen hhead hnil hs hb
  have hind : m.tripletList.map (fun t => t.2.1) = m.indices := by
    unfold CsMatrix.tripletList
    rw [List.map_flatMap]
    have hstep : ∀ k ∈ List.range m.offsets.length,
        ((m.lane k).map (fun p => (k, p.1, p.2))).map (fun t => t.2.1) =
          (m.lane k).map Prod.fst := by
      intro k _
      rw [List.map_map]
      rfl
    rw [flatMap_congr_mem hstep, ← List.map_flatMap, htile]
    exact List.map_fst_zip _ _ (le_of_eq hlen)
  have hdat : m.tripletList.map (fun t => t.2.2) = m.data := by
    unfold CsMatrix.tripletList
    rw [List.map_flatMap]
    have hstep : ∀ k ∈ List.range m.offsets.length,
        ((m.lane k).map (fun p => (k, p.1, p.2))).map (fun t => t.2.2) =
          (m.lane k).map Prod.snd := by
      intro k _
      rw [List.map_map]
      rfl
    rw [flatMap_congr_mem hstep, ← List.map_flatMap, htile]
    exact List.map_snd_zip _ _ (le_of_eq hlen.symm)
  have hoff : countToOffsets (majorCounts nmajor (m.tripletList.map (fun t => t.1))) =
      m.offsets := by
    have hcnt : majorCounts nmajor (m.tripletList.map (fun t => t.1)) =
        (List.range m.offsets.length).map (fun k => (m.lane k).length) := by
      rw [majorCounts_eq_map_count, ← hlen0]
      apply List.map_congr_left
      intro k hk
      rw [List.count_eq_countP, List.countP_map]
      have h3 : List.countP ((fun x => x == k) ∘ fun t : Nat × Nat × T => t.1)
          m.tripletList = (m.tripletList.filter (fun t => t.1 == k)).length := by
        rw [List.countP_eq_length_filter]
        rfl
      rw [h3, filter_tripletList_major m k (List.mem_range.mp hk), List.length_map]
    rw [hcnt]
    exact offsets_eq_countToOffsets_laneLengths m hlen hhead hs hb
  unfold csFromTriplets
  rw [hoff, hind, hdat]

theorem tripletList_major_lt_nmajor {T : Type} (nmajor nminor : Nat) (m : CsMatrix T)
    (hwf : CsWf nmajor nminor m) : ∀ t ∈ m.tripletList, t.1 < nmajor := by
  intro t ht
  have h1 := tripletList_major_lt m t ht
  have h2 := hwf.1
  omega

/-! ### Lemmas about the merge-subtraction iterator -/

theorem keyLt_trans {a b c : Nat × Nat} : keyLt a b → keyLt b c → keyLt a c := by
  unfold keyLt
  omega

theorem keyLt_irrefl (a : Nat × Nat) : ¬keyLt a a := by
  unfold keyLt
  omega

theorem sumAt_cons (t : Nat × Nat × Int) (ts : List (Nat × Nat × Int)) (k : Nat × Nat) :
    sumAt (t :: ts) k = (if tKey t = k then t.2.2 else 0) + sumAt ts k := by
  unfold sumAt
  by_cases h : tKey t = k
  · rw [List.filter_cons_of_pos (by simp [h])]
    simp [h]
  · rw [List.filter_cons_of_neg (by simp [h])]
    simp [h]

theorem sumAt_nil (k : Nat × Nat) : sumAt [] k = 0 := rfl

theorem mergeSub_nil_right (L : List (Nat × Nat × Int)) : mergeSub L [] = L := by
  induction L with
  | nil => rw [mergeSub.eq_def]
  | cons l ls ih =>
    rw [mergeSub.eq_def]
    simpa using ih

theorem mergeSub_sumAt (L R : List (Nat × Nat × Int)) (k : Nat × Nat) :
    sumAt (mergeSub L R) k = sumAt L k - sumAt R k := by
  induction L, R using mergeSub.induct with
  | case1 => simp [mergeSub.eq_def, sumAt_nil]
  | case2 l ls ih =>
    rw [mergeSub.eq_def]
    simp only [sumAt_cons, sumAt_nil, ih]
    dsimp only [tKey]
    split <;> omega
  | case3 r rs ih =>
    rw [mergeSub.eq_def]
    simp only [sumAt_cons, sumAt_nil, ih]
    dsimp only [tKey]
    split <;> omega
  | case4 l ls r rs h ih =>
    rw [mergeSub.eq_def]
    simp only [if_pos h, sumAt_cons, ih]
    dsimp only [tKey]
    split <;> split <;> omega
  | case5 l ls r rs h h2 ih =>
    rw [mergeSub.eq_def]
    simp only [if_neg h, if_pos h2, sumAt_cons, ih]
    dsimp only [tKey]
    obtain ⟨h21, h22⟩ := h2
    rw [h21, h22]
    split <;> omega
  | case6 l ls r rs h h2 ih =>
    rw [mergeSub.eq_def]
    simp only [if_neg h, if_neg h2, sumAt_cons, ih]
    dsimp only [tKey]
    split <;> split <;> omega

theorem mergeSub_key_prop (P : Nat × Nat → Prop) (L R : List (Nat × Nat × Int))
    (hL : ∀ a ∈ L, P (tKey a)) (hR : ∀ b ∈ R, P (tKey b)) :
    ∀ t ∈ mergeSub L R, P (tKey t) := by
  induction L, R using mergeSub.induct with
  | case1 =>
    intro t ht
    rw [mergeSub.eq_def] at ht
    simp at ht
  | case2 l ls ih =>
    intro t ht
    rw [mergeSub.eq_def] at ht
    rcases List.mem_cons.mp ht with rfl | ht
    · exact hL l (List.mem_cons_self l ls)
    · exact ih (fun a ha => hL a (List.mem_cons_of_mem l ha)) hR t ht
  | case3 r rs ih =>
    intro t ht
    rw [mergeSub.eq_def] at ht
    rcases List.mem_cons.mp ht with rfl | ht
    · exact hR r (List.mem_cons_self r rs)
    · exact ih hL (fun b hb => hR b (List.mem_cons_of_mem r hb)) t ht
  | case4 l ls r rs h ih =>
    intro t ht
    rw [mergeSub.eq_def] at ht
    simp only [if_pos h] at ht
    rcases List.mem_cons.mp ht with rfl | ht
    · exact hL l (List.mem_cons_self l ls)
    · exact ih (fun a ha => hL a (List.mem_cons_of_mem l ha)) hR t ht
  | case5 l ls r rs h h2 ih =>
    intro t ht
    rw [mergeSub.eq_def] at ht
    simp only [if_neg h, if_pos h2] at ht
    rcases List.mem_cons.mp ht with rfl | ht
    · exact hL l (List.mem_cons_self l ls)
    · exact ih (fun a ha => hL a (List.mem_cons_of_mem l ha))
        (fun b hb => hR b (List.mem_cons_of_mem r hb)) t ht
  | case6 l ls r rs h h2 ih =>
    intro t ht
    rw [mergeSub.eq_def] at ht
    simp only [if_neg h, if_neg h2] at ht
    rcases List.mem_cons.mp ht with rfl | ht
    · exact hR r (List.mem_cons_self r rs)
    · exact ih hL (fun b hb => hR b (List.mem_cons_of_mem r hb)) t ht

theorem mergeSub_pairwise_keyLt (L R : List (Nat × Nat × Int))
    (hL : L.Pairwise (fun a b => keyLt (tKey a) (tKey b)))
    (hR : R.Pairwise (fun a b => keyLt (tKey a) (tKey b))) :
    (mergeSub L R).Pairwise (fun a b => keyLt (tKey a) (tKey b)) := by
  induction L, R using mergeSub.induct with
  | case1 => rw [mergeSub.eq_def]; simp
  | case2 l ls ih =>
    rw [mergeSub.eq_def]
    simp only
    rw [List.pairwise_cons]
    obtain ⟨hl, hls⟩ := List.pairwise_cons.mp hL
    exact ⟨mergeSub_key_prop _ ls [] hl (by simp), ih hls hR⟩
  | case3 r rs ih =>
    rw [mergeSub.eq_def]
    simp only
    rw [List.pairwise_cons]
    obtain ⟨hr, hrs⟩ := List.pairwise_cons.mp hR
    exact ⟨mergeSub_key_prop _ [] rs (by simp) hr, ih hL hrs⟩
  | case4 l ls r rs h ih =>
    rw [mergeSub.eq_def]
    simp only [if_pos h]
    rw [List.pairwise_cons]
    obtain ⟨hl, hls⟩ := List.pairwise_cons.mp hL
    obtain ⟨hr, hrs⟩ := List.pairwise_cons.mp hR
    have hlr : keyLt (tKey l) (tKey r) := h
    refine ⟨mergeSub_key_prop _ ls (r :: rs) hl ?_, ih hls hR⟩
    intro b hb
    rcases List.mem_cons.mp hb with rfl | hb
    · exact hlr
    · exact keyLt_trans hlr (hr b hb)
  | case5 l ls r rs h h2 ih =>
    rw [mergeSub.eq_def]
    simp only [if_neg h, if_pos h2]
    rw [List.pairwise_cons]
    obtain ⟨hl, hls⟩ := List.pairwise_cons.mp hL
    obtain ⟨hr, hrs⟩ := List.pairwise_cons.mp hR
    have hkeyeq : tKey l = tKey r := by
      unfold tKey
      obtain ⟨h21, h22⟩ := h2
      rw [h21, h22]
    refine ⟨mergeSub_key_prop _ ls rs hl ?_, ih hls hrs⟩
    intro b hb
    show keyLt (tKey l) (tKey b)
    rw [hkeyeq]
    exact hr b hb
  | case6 l ls r rs h h2 ih =>
    rw [mergeSub.eq_def]
    simp only [if_neg h, if_neg h2]
    rw [List.pairwise_cons]
    obtain ⟨hl, hls⟩ := List.pairwise_cons.mp hL
    obtain ⟨hr, hrs⟩ := List.pairwise_cons.mp hR
    have hrl : keyLt (tKey r) (tKey l) := by
      unfold keyLt tKey
      dsimp only
      omega
    refine ⟨mergeSub_key_prop _ (l :: ls) rs ?_ hr, ih hL hrs⟩
    intro a ha
    rcases List.mem_cons.mp ha with rfl | ha
    · exact hrl
    · exact keyLt_trans hrl (hl a ha)

theorem mergeSub_key_mem_left (L R : List (Nat × Nat × Int)) :
    ∀ a ∈ L, tKey a ∈ (mergeSub L R).map tKey := by
  induction L, R using mergeSub.induct with
  | case1 => simp
  | case2 l ls ih =>
    intro a ha
    rw [mergeSub.eq_def]
    rcases List.mem_cons.mp ha with rfl | ha
    · exact List.mem_cons_self _ _
    · exact List.mem_cons_of_mem _ (ih a ha)
  | case3 r rs ih => simp
  | case4 l ls r rs h ih =>
    intro a ha
    rw [mergeSub.eq_def]
    simp only [if_pos h]
    rcases List.mem_cons.mp ha with rfl | ha
    · exact List.mem_cons_self _ _
    · exact List.mem_cons_of_mem _ (ih a ha)
  | case5 l ls r rs h h2 ih =>
    intro a ha
    rw [mergeSub.eq_def]
    simp only [if_neg h, if_pos h2]
    rcases List.mem_cons.mp ha with rfl | ha
    · exact List.mem_cons_self _ _
    · exact List.mem_cons_of_mem _ (ih a ha)
  | case6 l ls r rs h h2 ih =>
    intro a ha
    rw [mergeSub.eq_def]
    simp only [if_neg h, if_neg h2]
    exact List.mem_cons_of_mem _ (ih a ha)

theorem mergeSub_key_mem_right (L R : List (Nat × Nat × Int)) :
    ∀ b ∈ R, tKey b ∈ (mergeSub L R).map tKey := by
  induction L, R using mergeSub.induct with
  | case1 => simp
  | case2 l ls ih => simp
  | case3 r rs ih =>
    intro b hb
    rw [mergeSub.eq_def]
    rcases List.mem_cons.mp hb with rfl | hb
    · exact List.mem_cons_self _ _
    · exact List.mem_cons_of_mem _ (ih b hb)
  | case4 l ls r rs h ih =>
    intro b hb
    rw [mergeSub.eq_def]
    simp only [if_pos h]
    exact List.mem_cons_of_mem _ (ih b hb)
  | case5 l ls r rs h h2 ih =>
    intro b hb
    rw [mergeSub.eq_def]
    simp only [if_neg h, if_pos h2]
    rcases List.mem_cons.mp hb with rfl | hb
    · have hkeyeq : tKey b = tKey (l.1, l.2.1, l.2.2 - b.2.2) := by
        unfold tKey
        obtain ⟨h21, h22⟩ := h2
        dsimp only
        rw [h21, h22]
      rw [hkeyeq]
      exact List.mem_cons_self _ _
    · exact List.mem_cons_of_mem _ (ih b hb)
  | case6 l ls r rs h h2 ih =>
    intro b hb
    rw [mergeSub.eq_def]
    simp only [if_neg h, if_neg h2]
    rcases List.mem_cons.mp hb with rfl | hb
    · exact List.mem_cons_self _ _
    · exact List.mem_cons_of_mem _ (ih b hb)

theorem filter_key_eq_single (L : List (Nat × Nat × Int))
    (hs : L.Pairwise (fun a b => keyLt (tKey a) (tKey b))) :
    ∀ t ∈ L, L.filter (fun x => tKey x == tKey t) = [t] := by
  induction L with
  | nil => simp
  | cons a L ih =>
    intro t ht
    obtain ⟨ha, hL⟩ := List.pairwise_cons.mp hs
    rcases List.mem_cons.mp ht with rfl | ht
    · rw [List.filter_cons_of_pos (by simp)]
      have hnil : L.filter (fun x => tKey x == tKey t) = [] := by
        rw [List.filter_eq_nil_iff]
        intro x hx
        have hlt := ha x hx
        simp only [beq_iff_eq]
        intro hx2
        rw [hx2] at hlt
        exact keyLt_irrefl _ hlt
      rw [hnil]
    · have hne : tKey a ≠ tKey t := by
        intro hx
        have hlt := ha t ht
        rw [hx] at hlt
        exact keyLt_irrefl _ hlt
      rw [List.filter_cons_of_neg (by simpa using hne)]
      exact ih hL t ht

theorem sumAt_of_mem_strict (L : List (Nat × Nat × Int))
    (hs : L.Pairwise (fun a b => keyLt (tKey a) (tKey b)))
    (t : Nat × Nat × Int) (ht : t ∈ L) : sumAt L (tKey t) = t.2.2 := by
  unfold sumAt
  rw [filter_key_eq_single L hs t ht]
  simp

theorem mem_of_key_strict (L : List (Nat × Nat × Int))
    (hs : L.Pairwise (fun a b => keyLt (tKey a) (tKey b)))
    (k : Nat × Nat) (hk : k ∈ L.map tKey) : (k.1, k.2, sumAt L k) ∈ L := by
  obtain ⟨t, ht, rfl⟩ := List.mem_map.mp hk
  rw [sumAt_of_mem_strict L hs t ht]
  exact ht

/-! ### Key-sortedness of the triplet list of a well-formed matrix -/

theorem pairwise_flatMap_blocks_strict {T : Type} (n : Nat)
    (g : Nat → List (Nat × Nat × T))
    (hkey : ∀ k, k < n → ∀ x ∈ g k, x.1 = k)
    (hstrict : ∀ k, k < n → (g k).Pairwise (fun a b => a.2.1 < b.2.1)) :
    ((List.range n).flatMap g).Pairwise (fun a b => keyLt (tKey a) (tKey b)) := by
  induction n with
  | zero => simp
  | succ n ih =>
    rw [List.range_succ, List.flatMap_append, List.pairwise_append]
    refine ⟨ih (fun k hk => hkey k (by omega)) (fun k hk => hstrict k (by omega)), ?_, ?_⟩
    · simp only [List.flatMap_cons, List.flatMap_nil, List.append_nil]
      refine (hstrict n (by omega)).imp_of_mem ?_
      intro a b ha hb hab
      unfold keyLt tKey
      dsimp only
      right
      exact ⟨by rw [hkey n (by omega) a ha, hkey n (by omega) b hb], hab⟩
    · intro a ha b hb
      simp only [List.flatMap_cons, List.flatMap_nil, List.append_nil] at hb
      rw [List.mem_flatMap] at ha
      obtain ⟨j, hj, ha⟩ := ha
      have hjn : j < n := List.mem_range.mp hj
      unfold keyLt tKey
      dsimp only
      left
      rw [hkey j (by omega) a ha, hkey n (by omega) b hb]
      exact hjn

theorem csWf_tripletList_pairwise_keyLt {T : Type} (nmajor nminor : Nat)
    (m : CsMatrix T) (hwf : CsWf nmajor nminor m) :
    m.tripletList.Pairwise (fun a b => keyLt (tKey a) (tKey b)) := by
  unfold CsMatrix.tripletList
  apply pairwise_flatMap_blocks_strict
  · intro k _ x hx
    rw [List.mem_map] at hx
    obtain ⟨p, _, rfl⟩ := hx
    rfl
  · intro k hk
    refine List.pairwise_map.mpr ?_
    have hl := (hwf.2.2.2.2.2.2 k (by rw [List.mem_range, ← hwf.1]; exact hk)).1
    have := List.pairwise_map.mp hl
    refine this.imp ?_
    intro a b hab
    exact hab

theorem csWf_tripletList_minor_lt {T : Type} (nmajor nminor : Nat)
    (m : CsMatrix T) (hwf : CsWf nmajor nminor m) :
    ∀ t ∈ m.tripletList, t.2.1 < nminor := by
  intro t ht
  unfold CsMatrix.tripletList at ht
  rw [List.mem_flatMap] at ht
  obtain ⟨k, hk, ht⟩ := ht
  rw [List.mem_map] at ht
  obtain ⟨p, hp, rfl⟩ := ht
  have := (hwf.2.2.2.2.2.2 k (by rw [List.mem_range, ← hwf.1]; exact List.mem_range.mp hk)).2
  exact this p hp

/-! ### The orientation-transpose algorithm -/

theorem tripletList_transposeAlg {T : Type} (nminor : Nat) (m : CsMatrix T) :
    (transposeAlg nminor m).tripletList = minorTriplets nminor m := by
  show (CsMatrix.mk m.nrows m.ncols
    (countToOffsets (((List.range nminor).map (fun j => m.minorLane j)).map List.length))
    ((((List.range nminor).map (fun j => m.minorLane j)).flatten).map Prod.fst)
    ((((List.range nminor).map (fun j => m.minorLane j)).flatten).map Prod.snd)).tripletList
    = minorTriplets nminor m
  rw [tripletList_mk_groups]
  unfold minorTriplets
  rw [List.length_map, List.length_range]
  apply flatMap_congr_mem
  intro k hk
  have hk' : k < nminor := List.mem_range.mp hk
  rw [List.getD_eq_getElem?_getD, List.getElem?_map, List.getElem?_range hk']
  rfl

theorem minorTriplets_major_pairwise_le {T : Type} (nminor : Nat) (m : CsMatrix T) :
    (minorTriplets nminor m).Pairwise (fun a b => a.1 ≤ b.1) := by
  unfold minorTriplets
  apply pairwise_flatMap_blocks
  intro k x hx
  rw [List.mem_map] at hx
  obtain ⟨p, _, rfl⟩ := hx
  rfl

theorem minorTriplets_major_lt {T : Type} (nminor : Nat) (m : CsMatrix T) :
    ∀ t ∈ minorTriplets nminor m, t.1 < nminor := by
  intro t ht
  unfold minorTriplets at ht
  rw [List.mem_flatMap] at ht
  obtain ⟨k, hk, ht⟩ := ht
  rw [List.mem_map] at ht
  obtain ⟨p, _, rfl⟩ := ht
  exact List.mem_range.mp hk

theorem filter_minorTriplets_major {T : Type} (nminor : Nat) (m : CsMatrix T)
    (k : Nat) (hk : k < nminor) :
    (minorTriplets nminor m).filter (fun t => t.1 == k) =
      (m.minorLane k).map (fun p => (k, p.1, p.2)) := by
  unfold minorTriplets
  rw [List.filter_flatMap, flatMap_range_single nminor k _ hk]
  · rw [List.filter_eq_self.mpr]
    intro t ht
    rw [List.mem_map] at ht
    obtain ⟨p, _, rfl⟩ := ht
    simp
  · intro j hj
    rw [List.filter_eq_nil_iff]
    intro t ht
    rw [List.mem_map] at ht
    obtain ⟨p, _, rfl⟩ := ht
    simp [hj]

theorem transposeAlg_eq_csFromTriplets {T : Type} (nminor : Nat) (m : CsMatrix T) :
    transposeAlg nminor m =
      csFromTriplets T m.nrows m.ncols nminor (minorTriplets nminor m) := by
  have hcnt : majorCounts nminor ((minorTriplets nminor m).map (fun t => t.1)) =
      ((List.range nminor).map (fun j => m.minorLane j)).map List.length := by
    rw [majorCounts_eq_map_count, List.map_map]
    apply List.map_congr_left
    intro k hk
    have hk' : k < nminor := List.mem_range.mp hk
    rw [List.count_eq_countP, List.countP_map]
    have h3 : List.countP ((fun x => x == k) ∘ fun t : Nat × Nat × T => t.1)
        (minorTriplets nminor m) =
        ((minorTriplets nminor m).filter (fun t => t.1 == k)).length := by
      rw [List.countP_eq_length_filter]
      rfl
    rw [h3, filter_minorTriplets_major nminor m k hk', List.length_map]
    rfl
  have hind : (minorTriplets nminor m).map (fun t => t.2.1) =
      (((List.range nminor).map (fun j => m.minorLane j)).flatten).map Prod.fst := by
    rw [List.flatten_eq_flatMap, List.flatMap_map]
    simp only [id]
    unfold minorTriplets
    rw [List.map_flatMap, List.map_flatMap]
    apply flatMap_congr_mem
    intro k _
    rw [List.map_map]
    rfl
  have hdat : (minorTriplets nminor m).map (fun t => t.2.2) =
      (((List.range nminor).map (fun j => m.minorLane j)).flatten).map Prod.snd := by
    rw [List.flatten_eq_flatMap, List.flatMap_map]
    simp only [id]
    unfold minorTriplets
    rw [List.map_flatMap, List.map_flatMap]
    apply flatMap_congr_mem
    intro k _
    rw [List.map_map]
    rfl
  unfold csFromTriplets
  rw [hcnt, hind, hdat]
  rfl

theorem minorTriplets_eq_swapTriplets {T : Type} (n : Nat) (m : CsMatrix T) :
    minorTriplets n m = swapTriplets n m.tripletList := by
  unfold minorTriplets swapTriplets CsMatrix.minorLane
  apply flatMap_congr_mem
  intro i _
  rw [List.map_map]
  rfl

theorem swapTriplets_swapTriplets {T : Type} (n n2 : Nat) (E : List (Nat × Nat × T))
    (hkeys : E.Pairwise (fun a b => keyLt (tKey a) (tKey b)))
    (hmajle : E.Pairwise (fun a b => a.1 ≤ b.1))
    (hmin : ∀ t ∈ E, t.2.1 < n) (hmaj : ∀ t ∈ E, t.1 < n2) :
    swapTriplets n2 (swapTriplets n E) = E := by
  have hblock : ∀ j ∈ List.range n2,
      ((swapTriplets n E).filter (fun t => t.2.1 == j)).map (fun t => (j, t.1, t.2.2)) =
        E.filter (fun t => t.1 == j) := by
    intro j _
    unfold swapTriplets
    rw [List.filter_flatMap]
    have hA : ∀ i ∈ List.range n,
        List.filter (fun t => t.2.1 == j)
          ((E.filter (fun t => t.2.1 == i)).map (fun t => (i, t.1, t.2.2))) =
        ((E.filter (fun t => t.2.1 == i)).filter (fun t => t.1 == j)).map
          (fun t => (i, t.1, t.2.2)) := by
      intro i _
      rw [List.filter_map]
      rfl
    rw [flatMap_congr_mem hA, List.map_flatMap]
    have hB : ∀ i ∈ List.range n,
        (((E.filter (fun t => t.2.1 == i)).filter (fun t => t.1 == j)).map
          (fun t => (i, t.1, t.2.2))).map (fun t => (j, t.1, t.2.2)) =
        (E.filter (fun t => t.1 == j)).filter (fun t => t.2.1 == i) := by
      intro i _
      rw [List.map_map]
      have hcomm : (E.filter (fun t => t.2.1 == i)).filter (fun t => t.1 == j) =
          (E.filter (fun t => t.1 == j)).filter (fun t => t.2.1 == i) := by
        rw [List.filter_filter, List.filter_filter]
        apply List.filter_congr
        intro t _
        rw [Bool.and_comm]
      rw [hcomm]
      have hid : ∀ t ∈ (E.filter (fun t => t.1 == j)).filter (fun t => t.2.1 == i),
          ((fun t : Nat × Nat × T => (j, t.1, t.2.2)) ∘
            (fun t : Nat × Nat × T => (i, t.1, t.2.2))) t = id t := by
        intro t ht
        have h1 : t.1 = j := by
          have := List.of_mem_filter (List.mem_of_mem_filter ht)
          simpa using this
        have h2 : t.2.1 = i := by
          have := List.of_mem_filter ht
          simpa using this
        simp only [Function.comp, id]
        rw [← h1, ← h2]
      rw [List.map_congr_left hid, List.map_id]
    rw [flatMap_congr_mem hB]
    have hfil : (E.filter (fun t => t.1 == j)).Pairwise
        (fun a b => (fun t : Nat × Nat × T => t.2.1) a ≤ (fun t : Nat × Nat × T => t.2.1) b) := by
      refine List.Pairwise.imp_of_mem ?_ (hkeys.filter _)
      intro a b ha hb hab
      have haj : a.1 = j := by simpa using List.of_mem_filter ha
      have hbj : b.1 = j := by simpa using List.of_mem_filter hb
      rcases hab with h | ⟨_, h⟩
      · exfalso
        unfold tKey at h
        dsimp only at h
        omega
      · exact le_of_lt h
    have hfb : ∀ t ∈ E.filter (fun t => t.1 == j),
        (fun t : Nat × Nat × T => t.2.1) t < n :=
      fun t ht => hmin t (List.mem_of_mem_filter ht)
    have := regroupBy_eq_self (fun t : Nat × Nat × T => t.2.1) n
      (E.filter (fun t => t.1 == j)) hfil hfb
    unfold regroupBy at this
    exact this
  show (List.range n2).flatMap _ = E
  have hstep : ∀ j ∈ List.range n2,
      (((swapTriplets n E).filter (fun t => t.2.1 == j)).map (fun t => (j, t.1, t.2.2))) =
        E.filter (fun t => t.1 == j) := hblock
  rw [flatMap_congr_mem hstep]
  have := regroupBy_eq_self (fun t : Nat × Nat × T => t.1) n2 E hmajle hmaj
  unfold regroupBy at this
  exact this

theorem minorTriplets_transposeAlg {T : Type} (nmajor nminor : Nat) (m : CsMatrix T)
    (hwf : CsWf nmajor nminor m) :
    minorTriplets nmajor (transposeAlg nminor m) = m.tripletList := by
  rw [minorTriplets_eq_swapTriplets, tripletList_transposeAlg,
    minorTriplets_eq_swapTriplets]
  exact swapTriplets_swapTriplets nminor nmajor m.tripletList
    (csWf_tripletList_pairwise_keyLt nmajor nminor m hwf)
    (tripletList_major_pairwise_le m)
    (csWf_tripletList_minor_lt nmajor nminor m hwf)
    (tripletList_major_lt_nmajor nmajor nminor m hwf)

/-! ### The deduplicating walk of convert_coo_cs -/

theorem absorb_nil {T : Type} (comb : T → T → T) (P : List ((Nat × Nat) × T)) :
    absorb comb P [] = P := by
  simp [absorb]

theorem absorb_single_none {T : Type} (comb : T → T → T) (P : List ((Nat × Nat) × T))
    (t : (Nat × Nat) × T) (hlast : P.getLast? = none) :
    absorb comb P [t] = P ++ [t] := by
  conv_lhs => rw [absorb.eq_def]
  simp only [hlast]
  exact absorb_nil comb _

theorem absorb_single_dup {T : Type} (comb : T → T → T) (P : List ((Nat × Nat) × T))
    (t : (Nat × Nat) × T) (last : (Nat × Nat) × T) (hlast : P.getLast? = some last)
    (hkey : last.1 = t.1) :
    absorb comb P [t] = P.dropLast ++ [(last.1, comb last.2 t.2)] := by
  conv_lhs => rw [absorb.eq_def]
  simp only [hlast, if_pos hkey]
  exact absorb_nil comb _

theorem absorb_single_new {T : Type} (comb : T → T → T) (P : List ((Nat × Nat) × T))
    (t : (Nat × Nat) × T) (last : (Nat × Nat) × T) (hlast : P.getLast? = some last)
    (hkey : ¬last.1 = t.1) :
    absorb comb P [t] = P ++ [t] := by
  conv_lhs => rw [absorb.eq_def]
  simp only [hlast, if_neg hkey]
  exact absorb_nil comb _

theorem absorb_cons {T : Type} (comb : T → T → T) (P : List ((Nat × Nat) × T))
    (t : (Nat × Nat) × T) (ts : List ((Nat × Nat) × T)) :
    absorb comb P (t :: ts) = absorb comb (absorb comb P [t]) ts := by
  cases hlast : P.getLast? with
  | none =>
    have h1 : absorb comb P (t :: ts) = absorb comb (P ++ [t]) ts := by
      conv_lhs => rw [absorb.eq_def]
      simp only [hlast]
    rw [h1, absorb_single_none comb P t hlast]
  | some last =>
    by_cases h : last.1 = t.1
    · have h1 : absorb comb P (t :: ts) =
          absorb comb (P.dropLast ++ [(last.1, comb last.2 t.2)]) ts := by
        conv_lhs => rw [absorb.eq_def]
        simp only [hlast, if_pos h]
      rw [h1, absorb_single_dup comb P t last hlast h]
    · have h1 : absorb comb P (t :: ts) = absorb comb (P ++ [t]) ts := by
        conv_lhs => rw [absorb.eq_def]
        simp only [hlast, if_neg h]
      rw [h1, absorb_single_new comb P t last hlast h]

theorem cooCsStep_stateOf {T : Type} (comb : T → T → T) (nmajor : Nat)
    (P : List ((Nat × Nat) × T)) (t : (Nat × Nat) × T) :
    cooCsStep comb (stateOf nmajor P) t = stateOf nmajor (absorb comb P [t]) := by
  cases hlast : P.getLast? with
  | none =>
    have hPnil : P = [] := List.getLast?_eq_none_iff.mp hlast
    subst hPnil
    rw [absorb_single_none comb [] t rfl]
    unfold cooCsStep
    rw [if_neg (by simp [stateOf])]
    rfl
  | some last =>
    by_cases hkey : last.1 = t.1
    · rw [absorb_single_dup comb P t last hlast hkey]
      unfold cooCsStep
      rw [if_pos ?hc]
      case hc =>
        constructor
        · show Option.map (fun p : (Nat × Nat) × T => p.1.1) P.getLast? = some t.1.1
          rw [hlast]
          show some last.1.1 = some t.1.1
          rw [hkey]
        · show (P.map (fun p => p.1.2)).getLast? = some t.1.2
          rw [List.getLast?_map, hlast]
          show some last.1.2 = some t.1.2
          rw [hkey]
      have hdata : (stateOf nmajor P).data.getLast? = some last.2 := by
        show (P.map (fun p => p.2)).getLast? = some last.2
        rw [List.getLast?_map, hlast]
        rfl
      rw [hdata]
      show CooCsState.mk _ _ _ _ = _
      unfold stateOf
      rw [CooCsState.mk.injEq]
      have hmaj : (P.dropLast ++ [(last.1, comb last.2 t.2)]).map
          (fun p : (Nat × Nat) × T => p.1.1) = P.map (fun p => p.1.1) := by
        rw [List.map_append, List.map_dropLast]
        show (P.map (fun p : (Nat × Nat) × T => p.1.1)).dropLast ++ [last.1.1] = _
        apply List.dropLast_append_getLast?
        rw [List.getLast?_map, hlast]
        rfl
      have hmin : (P.dropLast ++ [(last.1, comb last.2 t.2)]).map
          (fun p : (Nat × Nat) × T => p.1.2) = P.map (fun p => p.1.2) := by
        rw [List.map_append, List.map_dropLast]
        show (P.map (fun p : (Nat × Nat) × T => p.1.2)).dropLast ++ [last.1.2] = _
        apply List.dropLast_append_getLast?
        rw [List.getLast?_map, hlast]
        rfl
      have hval : (P.dropLast ++ [(last.1, comb last.2 t.2)]).map
          (fun p : (Nat × Nat) × T => p.2) =
          (P.map (fun p => p.2)).dropLast ++ [comb last.2 t.2] := by
        rw [List.map_append, List.map_dropLast]
        rfl
      refine ⟨?_, ?_, ?_, ?_⟩
      · show majorCounts nmajor (P.map (fun p => p.1.1)) =
          majorCounts nmajor ((P.dropLast ++ [(last.1, comb last.2 t.2)]).map
            (fun p => p.1.1))
        rw [hmaj]
      · show P.map (fun p => p.1.2) =
          (P.dropLast ++ [(last.1, comb last.2 t.2)]).map (fun p => p.1.2)
        rw [hmin]
      · show (P.map (fun p => p.2)).dropLast ++ [comb last.2 t.2] =
          (P.dropLast ++ [(last.1, comb last.2 t.2)]).map (fun p => p.2)
        rw [hval]
      · show Option.map (fun p : (Nat × Nat) × T => p.1.1) P.getLast? =
          Option.map (fun p : (Nat × Nat) × T => p.1.1)
            ((P.dropLast ++ [(last.1, comb last.2 t.2)]).getLast?)
        rw [hlast, List.getLast?_concat]
        rfl
    · rw [absorb_single_new comb P t last hlast hkey]
      unfold cooCsStep
      rw [if_neg ?hc]
      case hc =>
        intro hcond
        obtain ⟨h1, h2⟩ := hcond
        apply hkey
        have h1x : Option.map (fun p : (Nat × Nat) × T => p.1.1) P.getLast? =
            some t.1.1 := h1
        have h2x : (P.map (fun p => p.1.2)).getLast? = some t.1.2 := h2
        rw [List.getLast?_map, hlast] at h2x
        rw [hlast] at h1x
        have h1y : last.1.1 = t.1.1 := by
          have : some last.1.1 = some t.1.1 := h1x
          exact Option.some.inj this
        have h2y : last.1.2 = t.1.2 := by
          have : some last.1.2 = some t.1.2 := h2x
          exact Option.some.inj this
        exact Prod.ext h1y h2y
      show CooCsState.mk _ _ _ _ = _
      unfold stateOf
      rw [CooCsState.mk.injEq]
      refine ⟨?_, ?_, ?_, ?_⟩
      · show (majorCounts nmajor (P.map (fun p => p.1.1))).set t.1.1
            ((majorCounts nmajor (P.map (fun p => p.1.1))).getD t.1.1 0 + 1) =
          majorCounts nmajor ((P ++ [t]).map (fun p => p.1.1))
        rw [List.map_append]
        unfold majorCounts bumpFold
        rw [List.foldl_append]
        rfl
      · show P.map (fun p => p.1.2) ++ [t.1.2] = (P ++ [t]).map (fun p => p.1.2)
        rw [List.map_append]
        rfl
      · show P.map (fun p => p.2) ++ [t.2] = (P ++ [t]).map (fun p => p.2)
        rw [List.map_append]
        rfl
      · show some t.1.1 = Option.map (fun p : (Nat × Nat) × T => p.1.1)
            ((P ++ [t]).getLast?)
        rw [List.getLast?_concat]
        rfl

theorem foldl_cooCsStep_stateOf {T : Type} (comb : T → T → T) (nmajor : Nat)
    (ts : List ((Nat × Nat) × T)) :
    ∀ P : List ((Nat × Nat) × T),
      ts.foldl (cooCsStep comb) (stateOf nmajor P) = stateOf nmajor (absorb comb P ts) := by
  induction ts with
  | nil => intro P; rfl
  | cons t ts ih =>
    intro P
    rw [List.foldl_cons, cooCsStep_stateOf, ih, ← absorb_cons]

theorem pairwise_getLast {α : Type} {R : α → α → Prop} (P : List α)
    (hP : P.Pairwise R) (last : α) (hlast : P.getLast? = some last) :
    ∀ a ∈ P, a = last ∨ R a last := by
  induction P with
  | nil => simp at hlast
  | cons x xs ih =>
    intro a ha
    cases xs with
    | nil =>
      rw [List.getLast?_singleton] at hlast
      have hx : x = last := Option.some.inj hlast
      subst hx
      rcases List.mem_cons.mp ha with rfl | h
      · exact Or.inl rfl
      · simp at h
    | cons y ys =>
      rw [List.getLast?_cons_cons] at hlast
      obtain ⟨hx, hxs⟩ := List.pairwise_cons.mp hP
      rcases List.mem_cons.mp ha with rfl | ha2
      · exact Or.inr (hx last (List.mem_of_mem_getLast? hlast))
      · exact ih hxs hlast a ha2

theorem keyLe_ne_keyLt {T : Type} (a b : (Nat × Nat) × T) (hle : keyLe a b)
    (hne : ¬a.1 = b.1) : keyLt a.1 b.1 := by
  unfold keyLe at hle
  unfold keyLt
  rw [Prod.ext_iff] at hne
  push_neg at hne
  rcases hle with h | ⟨h1, h2⟩
  · exact Or.inl h
  · right
    refine ⟨h1, ?_⟩
    rcases Nat.lt_or_ge a.1.2 b.1.2 with h3 | h3
    · exact h3
    · exact absurd (Nat.le_antisymm h2 h3) (hne h1)

theorem keyLe_of_key_eq {T : Type} (a b x : (Nat × Nat) × T) (heq : a.1 = b.1)
    (hle : keyLe b x) : keyLe a x := by
  unfold keyLe at *
  rw [heq]
  exact hle

theorem absorb_strict_keys {T : Type} (comb : T → T → T)
    (ts : List ((Nat × Nat) × T)) :
    ∀ P : List ((Nat × Nat) × T),
      P.Pairwise (fun a b => keyLt a.1 b.1) →
      ts.Pairwise keyLe →
      (∀ last, P.getLast? = some last → ∀ x ∈ ts, keyLe last x) →
      (absorb comb P ts).Pairwise (fun a b => keyLt a.1 b.1) ∧
      (∀ x ∈ absorb comb P ts,
        x.1 ∈ P.map (fun p => p.1) ∨ x.1 ∈ ts.map (fun p => p.1)) := by
  induction ts with
  | nil =>
    intro P hP _ _
    rw [absorb_nil]
    exact ⟨hP, fun x hx => Or.inl (List.mem_map_of_mem _ hx)⟩
  | cons t ts ih =>
    intro P hP hts hlink
    obtain ⟨ht, hts2⟩ := List.pairwise_cons.mp hts
    rw [absorb_cons]
    cases hlast : P.getLast? with
    | none =>
      have hPnil : P = [] := List.getLast?_eq_none_iff.mp hlast
      subst hPnil
      rw [absorb_single_none comb [] t rfl]
      have := ih ([] ++ [t]) (by simp) hts2 ?_
      · refine ⟨this.1, ?_⟩
        intro x hx
        rcases this.2 x hx with h | h
        · right
          simp only [List.nil_append] at h
          simp only [List.map_cons]
          rcases List.mem_singleton.mp (by simpa using h) with h2
          rw [h2]
          exact List.mem_cons_self _ _
        · right
          simp only [List.map_cons]
          exact List.mem_cons_of_mem _ h
      · intro last2 hlast2 x hx
        simp only [List.nil_append, List.getLast?_singleton] at hlast2
        have : last2 = t := (Option.some.inj hlast2).symm
        subst this
        exact ht x hx
    | some last =>
      by_cases hkey : last.1 = t.1
      · rw [absorb_single_dup comb P t last hlast hkey]
        have hPmap : (P.dropLast ++ [(last.1, comb last.2 t.2)]).map
            (fun p : (Nat × Nat) × T => p.1) = P.map (fun p => p.1) := by
          rw [List.map_append, List.map_dropLast]
          show (P.map (fun p : (Nat × Nat) × T => p.1)).dropLast ++ [last.1] = _
          apply List.dropLast_append_getLast?
          rw [List.getLast?_map, hlast]
          rfl
        have hPpw : (P.dropLast ++ [(last.1, comb last.2 t.2)]).Pairwise
            (fun a b => keyLt a.1 b.1) := by
          have h1 : (P.map (fun p : (Nat × Nat) × T => p.1)).Pairwise keyLt :=
            List.pairwise_map.mpr hP
          rw [← hPmap] at h1
          exact List.pairwise_map.mp h1
        have := ih (P.dropLast ++ [(last.1, comb last.2 t.2)]) hPpw hts2 ?_
        · refine ⟨this.1, ?_⟩
          intro x hx
          rcases this.2 x hx with h | h
          · rw [hPmap] at h
            exact Or.inl h
          · right
            simp only [List.map_cons]
            exact List.mem_cons_of_mem _ h
        · intro last2 hlast2 x hx
          rw [List.getLast?_concat] at hlast2
          have hl2 : last2 = (last.1, comb last.2 t.2) := (Option.some.inj hlast2).symm
          subst hl2
          refine keyLe_of_key_eq _ t _ ?_ (ht x hx)
          show last.1 = t.1
          exact hkey
      · rw [absorb_single_new comb P t last hlast hkey]
        have hlt : keyLt last.1 t.1 :=
          keyLe_ne_keyLt last t (hlink last hlast t (List.mem_cons_self t ts)) hkey
        have hPpw : (P ++ [t]).Pairwise (fun a b => keyLt a.1 b.1) := by
          rw [List.pairwise_append]
          refine ⟨hP, by simp, ?_⟩
          intro a ha b hb
          rw [List.mem_singleton] at hb
          subst hb
          rcases pairwise_getLast P hP last hlast a ha with rfl | h
          · exact hlt
          · exact keyLt_trans h hlt
        have := ih (P ++ [t]) hPpw hts2 ?_
        · refine ⟨this.1, ?_⟩
          intro x hx
          rcases this.2 x hx with h | h
          · rw [List.map_append] at h
            rcases List.mem_append.mp h with h2 | h2
            · exact Or.inl h2
            · right
              simp only [List.map_cons]
              rcases List.mem_singleton.mp (by simpa using h2) with h3
              rw [h3]
              exact List.mem_cons_self _ _
          · right
            simp only [List.map_cons]
            exact List.mem_cons_of_mem _ h
        · intro last2 hlast2 x hx
          rw [List.getLast?_concat] at hlast2
          have hl2 : last2 = t := (Option.some.inj hlast2).symm
          subst hl2
          exact ht x hx

theorem sumAtP_cons {T : Type} [AddCommMonoid T] (t : (Nat × Nat) × T)
    (ts : List ((Nat × Nat) × T)) (k : Nat × Nat) :
    sumAtP (t :: ts) k = (if t.1 = k then t.2 else 0) + sumAtP ts k := by
  unfold sumAtP
  by_cases h : t.1 = k
  · rw [List.filter_cons_of_pos (by simp [h])]
    simp [h]
  · rw [List.filter_cons_of_neg (by simp [h])]
    simp [h]

theorem sumAtP_append {T : Type} [AddCommMonoid T] (l1 l2 : List ((Nat × Nat) × T))
    (k : Nat × Nat) : sumAtP (l1 ++ l2) k = sumAtP l1 k + sumAtP l2 k := by
  unfold sumAtP
  rw [List.filter_append, List.map_append, List.sum_append]

theorem absorb_sumAtP (ts : List ((Nat × Nat) × Int)) :
    ∀ (P : List ((Nat × Nat) × Int)) (k : Nat × Nat),
      sumAtP (absorb (· + ·) P ts) k = sumAtP P k + sumAtP ts k := by
  induction ts with
  | nil =>
    intro P k
    rw [absorb_nil]
    simp [sumAtP]
  | cons t ts ih =>
    intro P k
    rw [absorb_cons, ih]
    cases hlast : P.getLast? with
    | none =>
      have hPnil : P = [] := List.getLast?_eq_none_iff.mp hlast
      subst hPnil
      rw [absorb_single_none _ [] t rfl]
      rw [sumAtP_append, sumAtP_cons]
      have h0 : sumAtP ([] : List ((Nat × Nat) × Int)) k = 0 := rfl
      rw [sumAtP_cons, h0]
      simp [sumAtP]
    | some last =>
      have hP : P.dropLast ++ [last] = P :=
        List.dropLast_append_getLast? last (by rw [hlast]; rfl)
      by_cases hkey : last.1 = t.1
      · rw [absorb_single_dup _ P t last hlast hkey]
        rw [sumAtP_append, sumAtP_cons]
        conv_rhs => rw [← hP]
        rw [sumAtP_append, sumAtP_cons, sumAtP_cons]
        have h0 : sumAtP ([] : List ((Nat × Nat) × Int)) k = 0 := rfl
        rw [h0]
        dsimp only
        rw [hkey]
        split <;> omega
      · rw [absorb_single_new _ P t last hlast hkey]
        rw [sumAtP_append, sumAtP_cons, sumAtP_cons]
        have h0 : sumAtP ([] : List ((Nat × Nat) × Int)) k = 0 := rfl
        rw [h0]
        omega

theorem zip_zip_map {α β γ : Type} (a : List α) :
    ∀ (b : List β) (c : List γ),
    ((a.zip b).zip c).map (fun p => (p.1.1, p.1.2, p.2)) = a.zip (b.zip c) := by
  induction a with
  | nil => intro b c; rfl
  | cons x xs ih =>
    intro b c
    cases b with
    | nil => rfl
    | cons y ys =>
      cases c with
      | nil => rfl
      | cons z zs => simp [ih]

theorem sumAt_map_reshape (l : List ((Nat × Nat) × Int)) (k : Nat × Nat) :
    sumAt (l.map (fun p => (p.1.1, p.1.2, p.2))) k = sumAtP l k := by
  unfold sumAt sumAtP
  rw [List.filter_map, List.map_map]
  rfl

theorem sumAtP_perm {T : Type} [AddCommMonoid T] (l1 l2 : List ((Nat × Nat) × T))
    (hp : l1.Perm l2) (k : Nat × Nat) : sumAtP l1 k = sumAtP l2 k := by
  unfold sumAtP
  exact ((hp.filter _).map _).sum_eq

/-! ### convert_coo_cs in assembled form -/

theorem convert_coo_cs_eq_csFromTriplets {T : Type} (comp : Compression)
    (coo : CooMatrix T) (comb : T → T → T) :
    convert_coo_cs comp coo comb =
      csFromTriplets T coo.nrows coo.ncols (comp.nmajor coo.nrows coo.ncols)
        ((absorb comb [] (List.insertionSort keyLe (cooKeyed comp coo))).map
          (fun p => (p.1.1, p.1.2, p.2))) := by
  have hfold : (List.insertionSort keyLe (cooKeyed comp coo)).foldl (cooCsStep comb)
      ⟨List.replicate (comp.nmajor coo.nrows coo.ncols) 0, [], [], none⟩ =
      stateOf (comp.nmajor coo.nrows coo.ncols)
        (absorb comb [] (List.insertionSort keyLe (cooKeyed comp coo))) := by
    have h0 : (⟨List.replicate (comp.nmajor coo.nrows coo.ncols) 0, [], [], none⟩ :
        CooCsState T) = stateOf (comp.nmajor coo.nrows coo.ncols) [] := rfl
    rw [h0, foldl_cooCsStep_stateOf]
  show CsMatrix.mk coo.nrows coo.ncols
      (countToOffsets ((List.insertionSort keyLe (cooKeyed comp coo)).foldl
        (cooCsStep comb)
        ⟨List.replicate (comp.nmajor coo.nrows coo.ncols) 0, [], [], none⟩).counts)
      ((List.insertionSort keyLe (cooKeyed comp coo)).foldl (cooCsStep comb)
        ⟨List.replicate (comp.nmajor coo.nrows coo.ncols) 0, [], [], none⟩).indices
      ((List.insertionSort keyLe (cooKeyed comp coo)).foldl (cooCsStep comb)
        ⟨List.replicate (comp.nmajor coo.nrows coo.ncols) 0, [], [], none⟩).data = _
  rw [hfold]
  unfold csFromTriplets stateOf
  rw [CsMatrix.mk.injEq]
  refine ⟨rfl, rfl, ?_, ?_, ?_⟩
  · rw [List.map_map]
    rfl
  · rw [List.map_map]
    rfl
  · rw [List.map_map]
    rfl

theorem cooKeyed_key_bounds {T : Type} (comp : Compression) (coo : CooMatrix T)
    (hwf : CooWf coo) : ∀ p ∈ cooKeyed comp coo,
      p.1.1 < comp.nmajor coo.nrows coo.ncols ∧
      p.1.2 < comp.nminor coo.nrows coo.ncols := by
  intro p hp
  unfold cooKeyed at hp
  have h1 : p.1 ∈ (coo.rows.zip coo.cols).map
      (fun rc => (comp.nmajor rc.1 rc.2, comp.nminor rc.1 rc.2)) :=
    (List.of_mem_zip hp).1
  rw [List.mem_map] at h1
  obtain ⟨rc, hrc, hkey⟩ := h1
  have hmem := List.of_mem_zip hrc
  have hr : rc.1 < coo.nrows := hwf.2.2.1 rc.1 hmem.1
  have hc : rc.2 < coo.ncols := hwf.2.2.2 rc.2 hmem.2
  rw [← hkey]
  cases comp with
  | rowMajor => exact ⟨hr, hc⟩
  | colMajor => exact ⟨hc, hr⟩

theorem convert_coo_cs_absorb_facts {T : Type} (comp : Compression)
    (coo : CooMatrix T) (comb : T → T → T) (hwf : CooWf coo) :
    (absorb comb [] (List.insertionSort keyLe (cooKeyed comp coo))).Pairwise
      (fun a b => keyLt a.1 b.1) ∧
    (∀ p ∈ absorb comb [] (List.insertionSort keyLe (cooKeyed comp coo)),
      p.1.1 < comp.nmajor coo.nrows coo.ncols ∧
      p.1.2 < comp.nminor coo.nrows coo.ncols) := by
  have hsorted : (List.insertionSort keyLe (cooKeyed comp coo)).Pairwise keyLe :=
    List.sorted_insertionSort keyLe _
  have hmain := absorb_strict_keys comb (List.insertionSort keyLe (cooKeyed comp coo))
    [] (by simp) hsorted (by intro last hl; simp at hl)
  refine ⟨hmain.1, ?_⟩
  intro p hp
  rcases hmain.2 p hp with h | h
  · simp at h
  · rw [List.mem_map] at h
    obtain ⟨q, hq, hkey⟩ := h
    have hqmem : q ∈ cooKeyed comp coo :=
      (List.perm_insertionSort keyLe _).mem_iff.mp hq
    have hb := cooKeyed_key_bounds comp coo hwf q hqmem
    rw [← hkey]
    exact hb

theorem convert_coo_cs_wf {T : Type} (comp : Compression) (coo : CooMatrix T)
    (comb : T → T → T) (hwf : CooWf coo) :
    CsWf (comp.nmajor coo.nrows coo.ncols) (comp.nminor coo.nrows coo.ncols)
      (convert_coo_cs comp coo comb) := by
  rw [convert_coo_cs_eq_csFromTriplets]
  obtain ⟨hstrict, hbounds⟩ := convert_coo_cs_absorb_facts comp coo comb hwf
  apply csWf_csFromTriplets
  · refine List.pairwise_map.mpr (hstrict.imp ?_)
    intro a b h
    exact h
  · intro t ht
    rw [List.mem_map] at ht
    obtain ⟨p, hp, rfl⟩ := ht
    exact (hbounds p hp).1
  · intro t ht
    rw [List.mem_map] at ht
    obtain ⟨p, hp, rfl⟩ := ht
    exact (hbounds p hp).2

theorem convert_coo_cs_tripletList {T : Type} (comp : Compression)
    (coo : CooMatrix T) (comb : T → T → T) (hwf : CooWf coo) :
    (convert_coo_cs comp coo comb).tripletList =
      (absorb comb [] (List.insertionSort keyLe (cooKeyed comp coo))).map
        (fun p => (p.1.1, p.1.2, p.2)) := by
  rw [convert_coo_cs_eq_csFromTriplets]
  obtain ⟨hstrict, hbounds⟩ := convert_coo_cs_absorb_facts comp coo comb hwf
  apply tripletList_csFromTriplets
  · refine List.pairwise_map.mpr (hstrict.imp ?_)
    intro a b h
    show a.1.1 ≤ b.1.1
    rcases h with h | ⟨h, _⟩
    · exact le_of_lt h
    · exact le_of_eq h
  · intro t ht
    rw [List.mem_map] at ht
    obtain ⟨p, hp, rfl⟩ := ht
    exact (hbounds p hp).1

theorem cooKeyed_rowMajor {T : Type} (coo : CooMatrix T) :
    cooKeyed .rowMajor coo = (coo.rows.zip coo.cols).zip coo.data := by
  unfold cooKeyed
  congr 1
  have hid : ∀ rc ∈ coo.rows.zip coo.cols,
      (fun rc : Nat × Nat => (Compression.nmajor .rowMajor rc.1 rc.2,
        Compression.nminor .rowMajor rc.1 rc.2)) rc = id rc := fun rc _ => rfl
  rw [List.map_congr_left hid, List.map_id]

theorem convert_coo_csr_sumAt (coo : CooMatrix Int) (hwf : CooWf coo)
    (k : Nat × Nat) :
    sumAt (convert_coo_csr coo).tripletList k = sumAt coo.tripletList k := by
  unfold convert_coo_csr
  rw [convert_coo_cs_tripletList _ _ _ hwf, sumAt_map_reshape, absorb_sumAtP]
  have h0 : sumAtP ([] : List ((Nat × Nat) × Int)) k = 0 := rfl
  rw [h0, zero_add, sumAtP_perm _ _ (List.perm_insertionSort keyLe _) k,
    cooKeyed_rowMajor]
  show _ = sumAt (coo.rows.zip (coo.cols.zip coo.data)) k
  rw [← zip_zip_map coo.rows, sumAt_map_reshape]

/-! ### Dense-matrix accumulation lemmas -/

theorem cell_index_lt (nrows ncols i j : Nat) (hi : i < nrows) (hj : j < ncols) :
    j * nrows + i < nrows * ncols := by
  have h1 : j * nrows + i < (j + 1) * nrows := by
    rw [Nat.succ_mul]
    omega
  have h2 : (j + 1) * nrows ≤ ncols * nrows := Nat.mul_le_mul_right _ hj
  have h3 : ncols * nrows = nrows * ncols := Nat.mul_comm _ _
  omega

theorem cell_index_inj (nrows i r j c : Nat) (hi : i < nrows) (hr : r < nrows)
    (hne : ¬(i = r ∧ j = c)) : j * nrows + i ≠ c * nrows + r := by
  intro heq
  by_cases hjc : j = c
  · subst hjc
    omega
  · rcases Nat.lt_or_ge j c with h | h
    · have h2 : (j + 1) * nrows ≤ c * nrows := Nat.mul_le_mul_right _ h
      rw [Nat.succ_mul] at h2
      omega
    · have hcj : c < j := by omega
      have h2 : (c + 1) * nrows ≤ j * nrows := Nat.mul_le_mul_right _ hcj
      rw [Nat.succ_mul] at h2
      omega

theorem addAt_get (m : DenseMatrix) (i j r c : Nat) (v : Int)
    (hi : i < m.nrows) (hj : j < m.ncols) (hr : r < m.nrows)
    (hdl : m.data.length = m.nrows * m.ncols) :
    (m.addAt i j v).get r c = m.get r c + (if i = r ∧ j = c then v else 0) := by
  unfold DenseMatrix.addAt DenseMatrix.get
  simp only
  by_cases hcell : i = r ∧ j = c
  · obtain ⟨rfl, rfl⟩ := hcell
    rw [if_pos ⟨rfl, rfl⟩]
    have hlt : j * m.nrows + i < m.data.length := by
      rw [hdl]
      exact cell_index_lt m.nrows m.ncols i j hi hj
    rw [List.getD_eq_getElem?_getD, List.getElem?_set_self hlt]
    rfl
  · rw [if_neg hcell]
    have hne : j * m.nrows + i ≠ c * m.nrows + r :=
      cell_index_inj m.nrows i r j c hi hr hcell
    rw [List.getD_eq_getElem?_getD (m.data.set _ _), List.getElem?_set_ne hne,
      ← List.getD_eq_getElem?_getD]
    omega

theorem addAt_shape (m : DenseMatrix) (i j : Nat) (v : Int) :
    (m.addAt i j v).nrows = m.nrows ∧ (m.addAt i j v).ncols = m.ncols ∧
    (m.addAt i j v).data.length = m.data.length := by
  unfold DenseMatrix.addAt
  refine ⟨rfl, rfl, ?_⟩
  simp only
  rw [List.length_set]

theorem foldl_addAt_get (trips : List (Nat × Nat × Int)) :
    ∀ (m : DenseMatrix), m.data.length = m.nrows * m.ncols →
    (∀ t ∈ trips, t.1 < m.ncols ∧ t.2.1 < m.nrows) →
    ∀ r c, r < m.nrows →
    (trips.foldl (fun acc t => acc.addAt t.2.1 t.1 t.2.2) m).get r c =
      m.get r c + sumAt trips (c, r) := by
  induction trips with
  | nil =>
    intro m _ _ r c _
    rw [sumAt_nil]
    simp
  | cons t ts ih =>
    intro m hdl hb r c hr
    rw [List.foldl_cons]
    have hshape := addAt_shape m t.2.1 t.1 t.2.2
    have hdl2 : (m.addAt t.2.1 t.1 t.2.2).data.length =
        (m.addAt t.2.1 t.1 t.2.2).nrows * (m.addAt t.2.1 t.1 t.2.2).ncols := by
      rw [hshape.1, hshape.2.1, hshape.2.2, hdl]
    have hb2 : ∀ x ∈ ts, x.1 < (m.addAt t.2.1 t.1 t.2.2).ncols ∧
        x.2.1 < (m.addAt t.2.1 t.1 t.2.2).nrows := by
      intro x hx
      rw [hshape.1, hshape.2.1]
      exact hb x (List.mem_cons_of_mem t hx)
    have hr2 : r < (m.addAt t.2.1 t.1 t.2.2).nrows := by
      rw [hshape.1]
      exact hr
    rw [ih _ hdl2 hb2 r c hr2]
    have hbt := hb t (List.mem_cons_self t ts)
    rw [addAt_get m t.2.1 t.1 r c t.2.2 hbt.2 hbt.1 hr hdl]
    rw [sumAt_cons]
    have hcond : (tKey t = (c, r)) ↔ (t.2.1 = r ∧ t.1 = c) := by
      unfold tKey
      rw [Prod.ext_iff]
      dsimp only
      constructor
      · intro ⟨h1, h2⟩
        exact ⟨h2, h1⟩
      · intro ⟨h1, h2⟩
        exact ⟨h2, h1⟩
    by_cases hkey : tKey t = (c, r)
    · rw [if_pos hkey, if_pos (hcond.mp hkey)]
      omega
    · rw [if_neg hkey, if_neg (fun hc2 => hkey (hcond.mpr hc2))]
      omega

theorem dzeros_get (nrows ncols r c : Nat) : (dzeros nrows ncols).get r c = 0 := by
  unfold dzeros DenseMatrix.get
  simp only
  rw [List.getD_eq_getElem?_getD, List.getElem?_replicate]
  split <;> rfl

theorem convert_csc_dense_get (csc : CsMatrix Int)
    (hb : ∀ t ∈ csc.tripletList, t.1 < csc.ncols ∧ t.2.1 < csc.nrows)
    (r c : Nat) (hr : r < csc.nrows) :
    (convert_csc_dense csc).get r c = sumAt csc.tripletList (c, r) := by
  unfold convert_csc_dense
  have hdl : (dzeros csc.nrows csc.ncols).data.length =
      (dzeros csc.nrows csc.ncols).nrows * (dzeros csc.nrows csc.ncols).ncols := by
    unfold dzeros
    simp
  rw [foldl_addAt_get csc.tripletList (dzeros csc.nrows csc.ncols) hdl hb r c hr,
    dzeros_get, zero_add]

/-! ### The spsub entry points in assembled form -/

theorem spsub_csc_csc_ok (lhs rhs : CsMatrix Int) (hr : lhs.nrows = rhs.nrows)
    (hc : lhs.ncols = rhs.ncols) :
    spsub_csc_csc lhs rhs = .ok (csFromTriplets Int lhs.nrows lhs.ncols lhs.ncols
      (mergeSub lhs.tripletList rhs.tripletList)) := by
  have hcounts : bumpCounts (List.replicate lhs.ncols 0)
      (mergeSub lhs.tripletList rhs.tripletList) =
      majorCounts lhs.ncols
        ((mergeSub lhs.tripletList rhs.tripletList).map (fun t => t.1)) := by
    rw [bumpCounts_eq_bumpFold]
    rfl
  unfold spsub_csc_csc
  rw [if_neg (by omega)]
  unfold csFromTriplets
  simp only [hcounts]

theorem spsub_csr_csc_ok (csr csc : CsMatrix Int) (hr : csr.nrows = csc.nrows)
    (hc : csr.ncols = csc.ncols) :
    spsub_csr_csc csr csc = .ok (csFromTriplets Int csr.nrows csr.ncols csr.nrows
      (mergeSub csr.tripletList (minorTriplets csc.nrows csc))) := by
  have hcounts : bumpCounts (List.replicate csr.nrows 0)
      (mergeSub csr.tripletList (minorTriplets csc.nrows csc)) =
      majorCounts csr.nrows
        ((mergeSub csr.tripletList (minorTriplets csc.nrows csc)).map (fun t => t.1)) := by
    rw [bumpCounts_eq_bumpFold]
    rfl
  unfold spsub_csr_csc
  rw [if_neg (by omega)]
  unfold csFromTriplets
  simp only [hcounts]

theorem spsub_csc_csc_err (lhs rhs : CsMatrix Int)
    (h : lhs.nrows ≠ rhs.nrows ∨ lhs.ncols ≠ rhs.ncols) :
    spsub_csc_csc lhs rhs =
      .error ⟨.InvalidPattern, shapeMismatchMessage⟩ := by
  unfold spsub_csc_csc
  rw [if_pos h]

theorem spsub_csr_csc_err (csr csc : CsMatrix Int)
    (h : csr.nrows ≠ csc.nrows ∨ csr.ncols ≠ csc.ncols) :
    spsub_csr_csc csr csc =
      .error ⟨.InvalidPattern, shapeMismatchMessage⟩ := by
  unfold spsub_csr_csc
  rw [if_pos h]

theorem spsub_csc_csr_err (csc csr : CsMatrix Int)
    (h : csc.nrows ≠ csr.nrows ∨ csc.ncols ≠ csr.ncols) :
    spsub_csc_csr csc csr =
      .error ⟨.InvalidPattern, shapeMismatchMessage⟩ := by
  unfold spsub_csc_csr
  rw [if_pos h]

theorem spsub_csr_csr_err (lhs rhs : CsMatrix Int)
    (h : lhs.nrows ≠ rhs.nrows ∨ lhs.ncols ≠ rhs.ncols) :
    spsub_csr_csr lhs rhs =
      .error ⟨.InvalidPattern, shapeMismatchMessage⟩ := by
  unfold spsub_csr_csr
  rw [spsub_csc_csc_err]
  · rfl
  · show lhs.ncols ≠ rhs.ncols ∨ lhs.nrows ≠ rhs.nrows
    omega

theorem csZeros_tripletList (T : Type) (nr nc nmajor : Nat) :
    (csZeros T nr nc nmajor).tripletList = [] := by
  unfold csZeros CsMatrix.tripletList CsMatrix.lane
  simp

theorem spsub_csc_csc_zero (m : CsMatrix Int) (hwf : CsWf m.ncols m.nrows m) :
    spsub_csc_csc m (csZeros Int m.nrows m.ncols m.ncols) = .ok m := by
  rw [spsub_csc_csc_ok m (csZeros Int m.nrows m.ncols m.ncols) rfl rfl,
    csZeros_tripletList, mergeSub_nil_right]
  rw [csFromTriplets_rep m.ncols m.nrows m hwf]

/-! ### Well-formedness of the transpose algorithm and offset facts -/

theorem minorLane_major_sorted {T : Type} (nmajor nminor : Nat) (m : CsMatrix T)
    (hwf : CsWf nmajor nminor m) (j : Nat) :
    ((m.minorLane j).map Prod.fst).Sorted (· < ·) := by
  unfold CsMatrix.minorLane
  rw [List.map_map]
  refine List.pairwise_map.mpr ?_
  have hfil : (m.tripletList.filter (fun t => t.2.1 == j)).Pairwise
      (fun a b => keyLt (tKey a) (tKey b)) :=
    (csWf_tripletList_pairwise_keyLt nmajor nminor m hwf).filter _
  refine List.Pairwise.imp_of_mem ?_ hfil
  intro a b ha hb hab
  have haj : a.2.1 = j := by simpa using List.of_mem_filter ha
  have hbj : b.2.1 = j := by simpa using List.of_mem_filter hb
  show a.1 < b.1
  rcases hab with h | ⟨_, h⟩
  · exact h
  · exfalso
    unfold tKey at h
    dsimp only at h
    omega

theorem transposeAlg_wf {T : Type} (nmajor nminor : Nat) (m : CsMatrix T)
    (hwf : CsWf nmajor nminor m) :
    CsWf nminor nmajor (transposeAlg nminor m) := by
  rw [transposeAlg_eq_csFromTriplets]
  apply csWf_csFromTriplets
  · unfold minorTriplets
    apply pairwise_flatMap_blocks_strict
    · intro k _ x hx
      rw [List.mem_map] at hx
      obtain ⟨p, _, rfl⟩ := hx
      rfl
    · intro k _
      refine List.pairwise_map.mpr ?_
      have := minorLane_major_sorted nmajor nminor m hwf k
      have h2 := List.pairwise_map.mp this
      refine h2.imp ?_
      intro a b hab
      exact hab
  · exact minorTriplets_major_lt nminor m
  · intro t ht
    unfold minorTriplets at ht
    rw [List.mem_flatMap] at ht
    obtain ⟨k, _, ht⟩ := ht
    rw [List.mem_map] at ht
    obtain ⟨p, hp, rfl⟩ := ht
    show p.1 < nmajor
    unfold CsMatrix.minorLane at hp
    rw [List.mem_map] at hp
    obtain ⟨q, hq, rfl⟩ := hp
    have := tripletList_major_lt m q (List.mem_of_mem_filter hq)
    have h2 := hwf.1
    show q.1 < nmajor
    omega

theorem csFromTriplets_offsets_facts {T : Type} (nr nc nmajor : Nat)
    (trips : List (Nat × Nat × T)) :
    (csFromTriplets T nr nc nmajor trips).offsets.length = nmajor ∧
    ((csFromTriplets T nr nc nmajor trips).offsets = [] ∨
      (csFromTriplets T nr nc nmajor trips).offsets.head? = some 0) ∧
    List.Sorted (· ≤ ·) (csFromTriplets T nr nc nmajor trips).offsets ∧
    (∀ o ∈ (csFromTriplets T nr nc nmajor trips).offsets,
      o ≤ (csFromTriplets T nr nc nmajor trips).nnz) := by
  refine ⟨?_, ?_, countToOffsets_sorted _, ?_⟩
  · show (countToOffsets _).length = nmajor
    rw [countToOffsets_length, majorCounts_length]
  · cases hmc : majorCounts nmajor (trips.map (fun t => t.1)) with
    | nil => exact Or.inl (by simp [csFromTriplets, hmc, countToOffsets, countToOffsetsAux])
    | cons c cs => exact Or.inr (by simp [csFromTriplets, hmc, countToOffsets_head])
  · intro o ho
    have h1 := countToOffsets_mem_bound _ o ho
    have h2 := majorCounts_sum_le nmajor (trips.map (fun t => t.1))
    show o ≤ (trips.map (fun t => t.2.2)).length
    rw [List.length_map]
    rw [List.length_map] at h2
    omega

theorem sum_take_mono (l : List Nat) (i j : Nat) (h : i ≤ j) :
    (l.take i).sum ≤ (l.take j).sum := by
  have h1 : l.take i = (l.take j).take i := by
    rw [List.take_take, Nat.min_eq_left h]
  rw [h1]
  conv_rhs => rw [← List.take_append_drop i (l.take j)]
  rw [List.sum_append]
  omega

theorem convert_dense_csr_offsets_facts (dense : DenseMatrix) :
    (convert_dense_csr dense).offsets.length = max dense.nrows 1 ∧
    (convert_dense_csr dense).offsets.head? = some 0 ∧
    List.Sorted (· ≤ ·) (convert_dense_csr dense).offsets ∧
    (∀ o ∈ (convert_dense_csr dense).offsets,
      o ≤ (convert_dense_csr dense).nnz) := by
  refine ⟨?_, rfl, ?_, ?_⟩
  · show (0 :: (List.range (dense.nrows - 1)).map _).length = max dense.nrows 1
    rw [List.length_cons, List.length_map, List.length_range]
    omega
  · show List.Sorted (· ≤ ·) (0 :: (List.range (dense.nrows - 1)).map
      (fun i => ((((List.range dense.nrows).map (csrRowEntries dense)).take (i + 1)).map
        List.length).sum))
    rw [List.sorted_cons]
    constructor
    · intro b _
      exact Nat.zero_le b
    · refine List.pairwise_map.mpr ?_
      refine (List.pairwise_lt_range _).imp_of_mem ?_
      intro a b _ _ hab
      rw [List.map_take, List.map_take]
      exact sum_take_mono _ _ _ (by omega)
  · intro o ho
    show o ≤ (((List.range dense.nrows).map (csrRowEntries dense)).flatten.map
      Prod.snd).length
    rw [List.length_map, List.length_flatten]
    rcases List.mem_cons.mp ho with rfl | ho
    · exact Nat.zero_le _
    · rw [List.mem_map] at ho
      obtain ⟨i, hi, rfl⟩ := ho
      have hi2 : i < dense.nrows - 1 := List.mem_range.mp hi
      rw [List.map_take]
      have hlen : (((List.range dense.nrows).map (csrRowEntries dense)).map
          List.length).length = dense.nrows := by
        rw [List.length_map, List.length_map, List.length_range]
      have hmono := sum_take_mono (((List.range dense.nrows).map
        (csrRowEntries dense)).map List.length) (i + 1)
        (((List.range dense.nrows).map (csrRowEntries dense)).map List.length).length
        (by rw [hlen]; omega)
      rw [List.take_length] at hmono
      exact hmono

/-! ### The claims -/

/-- C1 counterexample: the claim "offsets has length nmajor + 1 with
offsets[nmajor] = nnz" fails on the code.  Converting the 1×1 dense matrix
[[1]] to row-major compressed form yields the offsets sequence [0] of
length nmajor = 1, not nmajor + 1 = 2. -/
theorem claim_C1_counterexample :
    (convert_dense_csr (DenseMatrix.mk 1 1 [1])).offsets = [0] ∧
    (convert_dense_csr (DenseMatrix.mk 1 1 [1])).offsets.length ≠
      (DenseMatrix.mk 1 1 [1]).nrows + 1 := by
  decide

/-- C1 (amended): every compressed container constructed by the
coordinate-to-compressed conversion, the dense-to-compressed conversion,
the orientation transpose and the merge subtraction has a non-decreasing
offsets sequence whose first element is 0 when it is nonempty and whose
every element is at most nnz; its length is nmajor (the offsets array
stores one offset per major lane, with no trailing nnz entry), except that
the dense conversion emits the single offset 0 even when the matrix has
zero rows. -/
theorem claim_C1_amended {T : Type} (comp : Compression) (coo : CooMatrix T)
    (combinator : T → T → T) (dense : DenseMatrix) (csr : CsMatrix T)
    (A B C : CsMatrix Int) (hok : spsub_csc_csc A B = .ok C) :
    ((convert_coo_cs comp coo combinator).offsets.length =
        comp.nmajor coo.nrows coo.ncols ∧
      ((convert_coo_cs comp coo combinator).offsets = [] ∨
        (convert_coo_cs comp coo combinator).offsets.head? = some 0) ∧
      List.Sorted (· ≤ ·) (convert_coo_cs comp coo combinator).offsets ∧
      ∀ o ∈ (convert_coo_cs comp coo combinator).offsets,
        o ≤ (convert_coo_cs comp coo combinator).nnz) ∧
    ((convert_dense_csr dense).offsets.length = max dense.nrows 1 ∧
      (convert_dense_csr dense).offsets.head? = some 0 ∧
      List.Sorted (· ≤ ·) (convert_dense_csr dense).offsets ∧
      ∀ o ∈ (convert_dense_csr dense).offsets,
        o ≤ (convert_dense_csr dense).nnz) ∧
    ((convert_csr_csc csr).offsets.length = csr.ncols ∧
      ((convert_csr_csc csr).offsets = [] ∨
        (convert_csr_csc csr).offsets.head? = some 0) ∧
      List.Sorted (· ≤ ·) (convert_csr_csc csr).offsets ∧
      ∀ o ∈ (convert_csr_csc csr).offsets, o ≤ (convert_csr_csc csr).nnz) ∧
    (C.offsets.length = A.ncols ∧
      (C.offsets = [] ∨ C.offsets.head? = some 0) ∧
      List.Sorted (· ≤ ·) C.offsets ∧
      ∀ o ∈ C.offsets, o ≤ C.nnz) := by
  refine ⟨?_, convert_dense_csr_offsets_facts dense, ?_, ?_⟩
  · rw [convert_coo_cs_eq_csFromTriplets]
    exact csFromTriplets_offsets_facts _ _ _ _
  · have heq : convert_csr_csc csr =
        csFromTriplets T csr.nrows csr.ncols csr.ncols (minorTriplets csr.ncols csr) :=
      transposeAlg_eq_csFromTriplets csr.ncols csr
    rw [heq]
    exact csFromTriplets_offsets_facts _ _ _ _
  · by_cases hsh : A.nrows = B.nrows ∧ A.ncols = B.ncols
    · rw [spsub_csc_csc_ok A B hsh.1 hsh.2] at hok
      have hC : C = csFromTriplets Int A.nrows A.ncols A.ncols
          (mergeSub A.tripletList B.tripletList) := (Except.ok.inj hok).symm
      subst hC
      exact csFromTriplets_offsets_facts _ _ _ _
    · exfalso
      have h2 : A.nrows ≠ B.nrows ∨ A.ncols ≠ B.ncols := by
        rcases Decidable.em (A.nrows = B.nrows) with h | h
        · exact Or.inr (fun hcc => hsh ⟨h, hcc⟩)
        · exact Or.inl h
      rw [spsub_csc_csc_err A B h2] at hok
      simp at hok

/-- C1 witness: the amended invariant instantiated at concrete inputs. -/
theorem claim_C1_witness :
    spsub_csc_csc (csZeros Int 1 1 1) (csZeros Int 1 1 1) =
      .ok (csFromTriplets Int 1 1 1
        (mergeSub (csZeros Int 1 1 1).tripletList (csZeros Int 1 1 1).tripletList)) ∧
    (convert_coo_cs .rowMajor (CooMatrix.mk 2 2 [0] [1] [(5 : Int)])
      (· + ·)).offsets.length = 2 ∧
    (convert_dense_csr (DenseMatrix.mk 2 2 [1, 0, 0, 2])).offsets.length = 2 :=
  ⟨spsub_csc_csc_ok (csZeros Int 1 1 1) (csZeros Int 1 1 1) rfl rfl,
    (claim_C1_amended .rowMajor (CooMatrix.mk 2 2 [0] [1] [(5 : Int)]) (· + ·)
      (DenseMatrix.mk 2 2 [1, 0, 0, 2]) (CsMatrix.mk 2 2 [0, 1] [0, 1] [(3 : Int), 4])
      (csZeros Int 1 1 1) (csZeros Int 1 1 1) _
      (spsub_csc_csc_ok (csZeros Int 1 1 1) (csZeros Int 1 1 1) rfl rfl)).1.1,
    (claim_C1_amended .rowMajor (CooMatrix.mk 2 2 [0] [1] [(5 : Int)]) (· + ·)
      (DenseMatrix.mk 2 2 [1, 0, 0, 2]) (CsMatrix.mk 2 2 [0, 1] [0, 1] [(3 : Int), 4])
      (csZeros Int 1 1 1) (csZeros Int 1 1 1) _
      (spsub_csc_csc_ok (csZeros Int 1 1 1) (csZeros Int 1 1 1) rfl rfl)).2.1.1⟩

/-- C3: for every coordinate container whose indices lie within its shape
and every combinator, the coordinate-to-compressed conversion produces a
compressed container satisfying all structural invariants of the trusted
constructor: per-lane strictly increasing minor indices below the minor
dimension, equal-length index and value arrays, and well-formed offsets. -/
theorem claim_C3 {T : Type} (comp : Compression) (coo : CooMatrix T)
    (combinator : T → T → T) (hwf : CooWf coo) :
    CsWf (comp.nmajor coo.nrows coo.ncols) (comp.nminor coo.nrows coo.ncols)
      (convert_coo_cs comp coo combinator) :=
  convert_coo_cs_wf comp coo combinator hwf

/-- C3 witness: the invariants hold for a concrete conversion. -/
theorem claim_C3_witness :
    CooWf (CooMatrix.mk 3 4 [1, 0, 2, 2, 2] [3, 1, 0, 3, 2] [(4 : Int), 2, 1, 2, 1]) ∧
    CsWf 3 4 (convert_coo_cs .rowMajor
      (CooMatrix.mk 3 4 [1, 0, 2, 2, 2] [3, 1, 0, 3, 2] [(4 : Int), 2, 1, 2, 1])
      (· + ·)) :=
  ⟨by decide,
    claim_C3 .rowMajor
      (CooMatrix.mk 3 4 [1, 0, 2, 2, 2] [3, 1, 0, 3, 2] [(4 : Int), 2, 1, 2, 1])
      (· + ·) (by decide)⟩

/-- C4: converting the coordinate container with triplets
(1,3,4),(0,1,2),(2,0,1),(2,3,2),(2,2,1) over shape (3,4) to row-major
compressed form yields offsets [0,1,2], minor indices [1,3,0,2,3] and
values [2,4,1,1,2]; and for every well-formed coordinate container the
conversion stores each (row, col) position at most once, with the stored
values realizing exactly the per-position sums of the input (duplicates
are combined by summation, not appended). -/
theorem claim_C4 :
    convert_coo_csr ((((((CooMatrix.mk 3 4 [] [] []).push 1 3 4).push 0 1 2).push
        2 0 1).push 2 3 2).push 2 2 1) =
      CsMatrix.mk 3 4 [0, 1, 2] [1, 3, 0, 2, 3] [2, 4, 1, 1, 2] ∧
    ∀ coo : CooMatrix Int, CooWf coo →
      ((convert_coo_csr coo).tripletList.Pairwise (fun a b => tKey a ≠ tKey b) ∧
        ∀ r c : Nat, sumAt (convert_coo_csr coo).tripletList (r, c) =
          sumAt coo.tripletList (r, c)) := by
  constructor
  · decide
  · intro coo hwf
    constructor
    · have hwfcs := convert_coo_cs_wf .rowMajor coo (· + ·) hwf
      have hk := csWf_tripletList_pairwise_keyLt _ _ _ hwfcs
      refine hk.imp ?_
      intro a b hab hkeq
      rw [hkeq] at hab
      exact keyLt_irrefl _ hab
    · intro r c
      exact convert_coo_csr_sumAt coo hwf (r, c)

/-- C4 witness: the generic duplicate-summation part at a concrete container
with a duplicate position. -/
theorem claim_C4_witness :
    CooWf (CooMatrix.mk 3 4 [1, 1] [3, 3] [(4 : Int), 5]) ∧
    sumAt (convert_coo_csr (CooMatrix.mk 3 4 [1, 1] [3, 3] [(4 : Int), 5])).tripletList
        (1, 3) =
      sumAt (CooMatrix.mk 3 4 [1, 1] [3, 3] [(4 : Int), 5]).tripletList (1, 3) :=
  ⟨by decide,
    (claim_C4.2 (CooMatrix.mk 3 4 [1, 1] [3, 3] [(4 : Int), 5]) (by decide)).2 1 3⟩

/-- C5 counterexample: the error value does not carry the two shapes — two
shape-mismatch failures with entirely different operand shapes produce the
very same error value, so the shapes are not recoverable from it. -/
theorem claim_C5_counterexample :
    spsub_csc_csc (csZeros Int 1 2 2) (csZeros Int 2 2 2) =
      spsub_csc_csc (csZeros Int 3 5 5) (csZeros Int 4 7 7) ∧
    spsub_csc_csc (csZeros Int 1 2 2) (csZeros Int 2 2 2) =
      .error ⟨.InvalidPattern, shapeMismatchMessage⟩ := by
  constructor
  · rw [spsub_csc_csc_err _ _ (by decide), spsub_csc_csc_err _ _ (by decide)]
  · exact spsub_csc_csc_err _ _ (by decide)

/-- C5 (amended): for every pair of sparse operands whose row or column
dimensions differ, each sparse-sparse subtraction function returns (rather
than panics) a recoverable structural-mismatch error value carrying the
InvalidPattern kind and a fixed message (the shapes themselves are not
stored in the error); the result is exactly that error value, so no
partial result is computed. -/
theorem claim_C5 (A B : CsMatrix Int)
    (h : A.nrows ≠ B.nrows ∨ A.ncols ≠ B.ncols) :
    spsub_csc_csc A B = .error ⟨.InvalidPattern, shapeMismatchMessage⟩ ∧
    spsub_csr_csc A B = .error ⟨.InvalidPattern, shapeMismatchMessage⟩ ∧
    spsub_csc_csr A B = .error ⟨.InvalidPattern, shapeMismatchMessage⟩ ∧
    spsub_csr_csr A B = .error ⟨.InvalidPattern, shapeMismatchMessage⟩ :=
  ⟨spsub_csc_csc_err A B h, spsub_csr_csc_err A B h, spsub_csc_csr_err A B h,
    spsub_csr_csr_err A B h⟩

/-- C5 witness: the amended error behavior at concrete mismatched shapes. -/
theorem claim_C5_witness :
    ((csZeros Int 1 2 2).nrows ≠ (csZeros Int 2 2 2).nrows ∨
      (csZeros Int 1 2 2).ncols ≠ (csZeros Int 2 2 2).ncols) ∧
    spsub_csc_csc (csZeros Int 1 2 2) (csZeros Int 2 2 2) =
      .error ⟨.InvalidPattern, shapeMismatchMessage⟩ :=
  ⟨by decide, (claim_C5 (csZeros Int 1 2 2) (csZeros Int 2 2 2) (by decide)).1⟩

/-- C7 counterexample: the offsets of the row-major compression of the
dense matrix [[1,0,3],[0,5,0]] are [0,2] — one offset per row, without the
claimed trailing nnz entry 3. -/
theorem claim_C7_counterexample :
    (convert_dense_csr (DenseMatrix.mk 2 3 [1, 0, 0, 5, 3, 0])).offsets ≠
      [0, 2, 3] := by
  decide

/-- C7 (amended): converting the 2×3 dense matrix [[1,0,3],[0,5,0]]
(column-major data [1,0,0,5,3,0]) to a coordinate container yields exactly
the triplets (0,0,1),(1,1,5),(0,2,3) in that order, and converting it to
row-major compressed form yields offsets [0,2], minor indices [0,2,1] and
values [1,3,5]. -/
theorem claim_C7_amended :
    convert_dense_coo (DenseMatrix.mk 2 3 [1, 0, 0, 5, 3, 0]) =
      CooMatrix.mk 2 3 [0, 1, 0] [0, 1, 2] [1, 5, 3] ∧
    convert_dense_csr (DenseMatrix.mk 2 3 [1, 0, 0, 5, 3, 0]) =
      CsMatrix.mk 2 3 [0, 2] [0, 2, 1] [1, 3, 5] := by
  decide

/-- C2: for every pair of well-formed column-major compressed matrices of
identical shape, converting the result of sparse-sparse subtraction to
dense agrees cell-by-cell with the difference of the dense conversions of
the operands. -/
theorem claim_C2 (A B C : CsMatrix Int)
    (hwfA : CsWf A.ncols A.nrows A) (hwfB : CsWf B.ncols B.nrows B)
    (hr : A.nrows = B.nrows) (hc : A.ncols = B.ncols)
    (hok : spsub_csc_csc A B = .ok C)
    (r c : Nat) (hrow : r < A.nrows) (hcol : c < A.ncols) :
    (convert_csc_dense C).get r c =
      (convert_csc_dense A).get r c - (convert_csc_dense B).get r c := by
  rw [spsub_csc_csc_ok A B hr hc] at hok
  have hC : C = csFromTriplets Int A.nrows A.ncols A.ncols
      (mergeSub A.tripletList B.tripletList) := (Except.ok.inj hok).symm
  subst hC
  have hkA := csWf_tripletList_pairwise_keyLt A.ncols A.nrows A hwfA
  have hkB := csWf_tripletList_pairwise_keyLt B.ncols B.nrows B hwfB
  have hstrict := mergeSub_pairwise_keyLt _ _ hkA hkB
  have hmajle : (mergeSub A.tripletList B.tripletList).Pairwise
      (fun a b => a.1 ≤ b.1) := by
    refine hstrict.imp ?_
    intro a b h
    rcases h with h | ⟨h, _⟩
    · exact le_of_lt h
    · exact le_of_eq h
  have hmajA := tripletList_major_lt_nmajor A.ncols A.nrows A hwfA
  have hmajB := tripletList_major_lt_nmajor B.ncols B.nrows B hwfB
  have hminA := csWf_tripletList_minor_lt A.ncols A.nrows A hwfA
  have hminB := csWf_tripletList_minor_lt B.ncols B.nrows B hwfB
  have hmaj : ∀ t ∈ mergeSub A.tripletList B.tripletList, t.1 < A.ncols := by
    have := mergeSub_key_prop (fun k => k.1 < A.ncols) A.tripletList B.tripletList
      (fun a ha => hmajA a ha) (fun b hb => by have := hmajB b hb; dsimp only [tKey]; omega)
    intro t ht
    exact this t ht
  have hmin : ∀ t ∈ mergeSub A.tripletList B.tripletList, t.2.1 < A.nrows := by
    have := mergeSub_key_prop (fun k => k.2 < A.nrows) A.tripletList B.tripletList
      (fun a ha => hminA a ha) (fun b hb => by have := hminB b hb; dsimp only [tKey]; omega)
    intro t ht
    exact this t ht
  have htrip : (csFromTriplets Int A.nrows A.ncols A.ncols
      (mergeSub A.tripletList B.tripletList)).tripletList =
      mergeSub A.tripletList B.tripletList :=
    tripletList_csFromTriplets _ _ _ _ hmajle hmaj
  have hget := convert_csc_dense_get
    (csFromTriplets Int A.nrows A.ncols A.ncols (mergeSub A.tripletList B.tripletList))
    (by rw [htrip]; intro t ht; exact ⟨hmaj t ht, hmin t ht⟩) r c hrow
  rw [hget, htrip, mergeSub_sumAt]
  rw [convert_csc_dense_get A (fun t ht => ⟨hmajA t ht, hminA t ht⟩) r c hrow,
    convert_csc_dense_get B
      (fun t ht => ⟨by have := hmajB t ht; omega, by have := hminB t ht; omega⟩)
      r c (by omega)]

/-- C2 witness: the dense agreement at a concrete pair of matrices. -/
theorem claim_C2_witness :
    CsWf 2 2 (CsMatrix.mk 2 2 [0, 1] [0, 1] [(5 : Int), 7]) ∧
    (convert_csc_dense (csFromTriplets Int 2 2 2
        (mergeSub (CsMatrix.mk 2 2 [0, 1] [0, 1] [(5 : Int), 7]).tripletList
          (CsMatrix.mk 2 2 [0, 1] [1, 0] [(2 : Int), 3]).tripletList))).get 0 0 =
      (convert_csc_dense (CsMatrix.mk 2 2 [0, 1] [0, 1] [(5 : Int), 7])).get 0 0 -
        (convert_csc_dense (CsMatrix.mk 2 2 [0, 1] [1, 0] [(2 : Int), 3])).get 0 0 :=
  ⟨by decide,
    claim_C2 (CsMatrix.mk 2 2 [0, 1] [0, 1] [(5 : Int), 7])
      (CsMatrix.mk 2 2 [0, 1] [1, 0] [(2 : Int), 3]) _
      (by decide) (by decide) rfl rfl
      (spsub_csc_csc_ok (CsMatrix.mk 2 2 [0, 1] [0, 1] [(5 : Int), 7])
        (CsMatrix.mk 2 2 [0, 1] [1, 0] [(2 : Int), 3]) rfl rfl)
      0 0 (by decide) (by decide)⟩

/-- C6: in merge-based subtraction of well-formed column-major operands,
when both operands store an entry at the same (major, minor) position and
the subtraction of their values is exactly zero, the output still contains
an explicitly stored entry with value zero at that position, and that entry
is counted in the output's nnz (the stored triplets exhaust the nnz stored
entries; no zero-pruning pass is performed). -/
theorem claim_C6 (A B : CsMatrix Int)
    (hwfA : CsWf A.ncols A.nrows A) (hwfB : CsWf B.ncols B.nrows B)
    (hr : A.nrows = B.nrows) (hc : A.ncols = B.ncols)
    (i j : Nat) (v w : Int)
    (hvA : (i, j, v) ∈ A.tripletList) (hwB : (i, j, w) ∈ B.tripletList)
    (hzero : v - w = 0) :
    ∃ C, spsub_csc_csc A B = .ok C ∧ (i, j, (0 : Int)) ∈ C.tripletList ∧
      C.nnz = C.tripletList.length := by
  have hkA := csWf_tripletList_pairwise_keyLt A.ncols A.nrows A hwfA
  have hkB := csWf_tripletList_pairwise_keyLt B.ncols B.nrows B hwfB
  have hstrict := mergeSub_pairwise_keyLt _ _ hkA hkB
  have hmajle : (mergeSub A.tripletList B.tripletList).Pairwise
      (fun a b => a.1 ≤ b.1) := by
    refine hstrict.imp ?_
    intro a b h
    rcases h with h | ⟨h, _⟩
    · exact le_of_lt h
    · exact le_of_eq h
  have hmajA := tripletList_major_lt_nmajor A.ncols A.nrows A hwfA
  have hmajB := tripletList_major_lt_nmajor B.ncols B.nrows B hwfB
  have hmaj : ∀ t ∈ mergeSub A.tripletList B.tripletList, t.1 < A.ncols := by
    have := mergeSub_key_prop (fun k => k.1 < A.ncols) A.tripletList B.tripletList
      (fun a ha => hmajA a ha) (fun b hb => by have := hmajB b hb; dsimp only [tKey]; omega)
    intro t ht
    exact this t ht
  have htrip : (csFromTriplets Int A.nrows A.ncols A.ncols
      (mergeSub A.tripletList B.tripletList)).tripletList =
      mergeSub A.tripletList B.tripletList :=
    tripletList_csFromTriplets _ _ _ _ hmajle hmaj
  refine ⟨csFromTriplets Int A.nrows A.ncols A.ncols
    (mergeSub A.tripletList B.tripletList), spsub_csc_csc_ok A B hr hc, ?_, ?_⟩
  · rw [htrip]
    have hkeymem : (i, j) ∈ (mergeSub A.tripletList B.tripletList).map tKey :=
      mergeSub_key_mem_left A.tripletList B.tripletList (i, j, v) hvA
    have hmem := mem_of_key_strict _ hstrict (i, j) hkeymem
    have hsum : sumAt (mergeSub A.tripletList B.tripletList) (i, j) = 0 := by
      rw [mergeSub_sumAt]
      have h1 : sumAt A.tripletList (i, j) = v :=
        sumAt_of_mem_strict A.tripletList hkA (i, j, v) hvA
      have h2 : sumAt B.tripletList (i, j) = w :=
        sumAt_of_mem_strict B.tripletList hkB (i, j, w) hwB
      rw [h1, h2]
      exact hzero
    rw [hsum] at hmem
    exact hmem
  · show (List.map (fun t => t.2.2) (mergeSub A.tripletList B.tripletList)).length =
      (csFromTriplets Int A.nrows A.ncols A.ncols
        (mergeSub A.tripletList B.tripletList)).tripletList.length
    rw [htrip, List.length_map]

/-- C6 witness: both operands store (0,0,5) in a 1-by-1 matrix; the
difference has the explicit zero stored and counted. -/
theorem claim_C6_witness :
    ∃ C, spsub_csc_csc (CsMatrix.mk 1 1 [0] [0] [(5 : Int)])
        (CsMatrix.mk 1 1 [0] [0] [(5 : Int)]) = .ok C ∧
      (0, 0, (0 : Int)) ∈ C.tripletList ∧ C.nnz = C.tripletList.length :=
  claim_C6 (CsMatrix.mk 1 1 [0] [0] [(5 : Int)])
    (CsMatrix.mk 1 1 [0] [0] [(5 : Int)])
    (by decide) (by decide) rfl rfl 0 0 5 5 (by decide) (by decide) (by decide)

/-- C8: converting a well-formed row-major matrix to column-major and back
(and symmetrically a well-formed column-major matrix to row-major and back)
reproduces the matrix exactly: same shape, offsets, minor indices and
values. -/
theorem claim_C8 {T : Type} (M : CsMatrix T) :
    (CsWf M.nrows M.ncols M → convert_csc_csr (convert_csr_csc M) = M) ∧
    (CsWf M.ncols M.nrows M → convert_csr_csc (convert_csc_csr M) = M) := by
  constructor
  · intro hwf
    have h : convert_csc_csr (convert_csr_csc M) =
        csFromTriplets T M.nrows M.ncols M.nrows
          (minorTriplets M.nrows (transposeAlg M.ncols M)) :=
      transposeAlg_eq_csFromTriplets M.nrows (transposeAlg M.ncols M)
    rw [h, minorTriplets_transposeAlg M.nrows M.ncols M hwf]
    exact csFromTriplets_rep M.nrows M.ncols M hwf
  · intro hwf
    have h : convert_csr_csc (convert_csc_csr M) =
        csFromTriplets T M.nrows M.ncols M.ncols
          (minorTriplets M.ncols (transposeAlg M.nrows M)) :=
      transposeAlg_eq_csFromTriplets M.ncols (transposeAlg M.nrows M)
    rw [h, minorTriplets_transposeAlg M.ncols M.nrows M hwf]
    exact csFromTriplets_rep M.ncols M.nrows M hwf

/-- C8 witness: the round trips at concrete well-formed matrices. -/
theorem claim_C8_witness :
    convert_csc_csr (convert_csr_csc
        (CsMatrix.mk 2 3 [0, 2] [0, 2, 1] [(1 : Int), 2, 3])) =
      CsMatrix.mk 2 3 [0, 2] [0, 2, 1] [(1 : Int), 2, 3] ∧
    convert_csr_csc (convert_csc_csr
        (CsMatrix.mk 3 2 [0, 2] [0, 2, 1] [(4 : Int), 5, 6])) =
      CsMatrix.mk 3 2 [0, 2] [0, 2, 1] [(4 : Int), 5, 6] :=
  ⟨(claim_C8 (CsMatrix.mk 2 3 [0, 2] [0, 2, 1] [(1 : Int), 2, 3])).1 (by decide),
    (claim_C8 (CsMatrix.mk 3 2 [0, 2] [0, 2, 1] [(4 : Int), 5, 6])).2 (by decide)⟩

/-- C9: subtracting the empty compressed matrix of the same shape from a
well-formed matrix A returns A unchanged in structure and values, both on
the column-major and on the row-major subtraction path. -/
theorem claim_C9 (A : CsMatrix Int) :
    (CsWf A.ncols A.nrows A →
      spsub_csc_csc A (csZeros Int A.nrows A.ncols A.ncols) = .ok A) ∧
    (CsWf A.nrows A.ncols A →
      spsub_csr_csr A (csZeros Int A.nrows A.ncols A.nrows) = .ok A) := by
  constructor
  · intro hwf
    exact spsub_csc_csc_zero A hwf
  · intro hwf
    have hwf' : CsWf A.transpose.ncols A.transpose.nrows A.transpose := hwf
    have h : spsub_csc_csc A.transpose
        ((csZeros Int A.nrows A.ncols A.nrows).transpose) = .ok A.transpose :=
      spsub_csc_csc_zero A.transpose hwf'
    show (spsub_csc_csc A.transpose
        ((csZeros Int A.nrows A.ncols A.nrows).transpose)).map
      CsMatrix.transpose = .ok A
    rw [h]
    rfl

/-- C9 witness: subtraction of zeros at concrete well-formed matrices. -/
theorem claim_C9_witness :
    spsub_csc_csc (CsMatrix.mk 3 2 [0, 2] [0, 2, 1] [(4 : Int), 5, 6])
        (csZeros Int 3 2 2) =
      .ok (CsMatrix.mk 3 2 [0, 2] [0, 2, 1] [(4 : Int), 5, 6]) ∧
    spsub_csr_csr (CsMatrix.mk 2 3 [0, 2] [0, 2, 1] [(1 : Int), 2, 3])
        (csZeros Int 2 3 2) =
      .ok (CsMatrix.mk 2 3 [0, 2] [0, 2, 1] [(1 : Int), 2, 3]) :=
  ⟨(claim_C9 (CsMatrix.mk 3 2 [0, 2] [0, 2, 1] [(4 : Int), 5, 6])).1 (by decide),
    (claim_C9 (CsMatrix.mk 2 3 [0, 2] [0, 2, 1] [(1 : Int), 2, 3])).2 (by decide)⟩

/-- C10: for a well-formed row-major right operand B, the CSR-CSR
subtraction path (transpose both operands, subtract column-major, transpose
back) returns the same result, ok value or error alike, as the mixed path
that subtracts A and the column-major conversion of B directly. -/
theorem claim_C10 (A B : CsMatrix Int) (hwfB : CsWf B.nrows B.ncols B) :
    spsub_csr_csr A B = spsub_csr_csc A (convert_csr_csc B) := by
  by_cases hsh : A.nrows = B.nrows ∧ A.ncols = B.ncols
  · obtain ⟨hr, hc⟩ := hsh
    have hmt : minorTriplets (convert_csr_csc B).nrows (convert_csr_csc B) =
        B.tripletList := minorTriplets_transposeAlg B.nrows B.ncols B hwfB
    have hrc : A.nrows = (convert_csr_csc B).nrows := hr
    have hcc : A.ncols = (convert_csr_csc B).ncols := hc
    have hrhs := spsub_csr_csc_ok A (convert_csr_csc B) hrc hcc
    have h1 : A.transpose.nrows = B.transpose.nrows := hc
    have h2 : A.transpose.ncols = B.transpose.ncols := hr
    have hlhs := spsub_csc_csc_ok A.transpose B.transpose h1 h2
    show (spsub_csc_csc A.transpose B.transpose).map CsMatrix.transpose =
      spsub_csr_csc A (convert_csr_csc B)
    rw [hlhs, hrhs, hmt]
    rfl
  · have h : A.nrows ≠ B.nrows ∨ A.ncols ≠ B.ncols := by
      by_cases h1 : A.nrows = B.nrows
      · right
        intro h2
        exact hsh ⟨h1, h2⟩
      · left
        exact h1
    rw [spsub_csr_csr_err A B h, spsub_csr_csc_err A (convert_csr_csc B) h]

/-- C10 witness: the two paths agree at a concrete pair of matrices. -/
theorem claim_C10_witness :
    spsub_csr_csr (CsMatrix.mk 2 3 [0, 1] [1] [(9 : Int)])
        (CsMatrix.mk 2 3 [0, 2] [0, 2, 1] [(1 : Int), 2, 3]) =
      spsub_csr_csc (CsMatrix.mk 2 3 [0, 1] [1] [(9 : Int)])
        (convert_csr_csc (CsMatrix.mk 2 3 [0, 2] [0, 2, 1] [(1 : Int), 2, 3])) :=
  claim_C10 (CsMatrix.mk 2 3 [0, 1] [1] [(9 : Int)])
    (CsMatrix.mk 2 3 [0, 2] [0, 2, 1] [(1 : Int), 2, 3]) (by decide)
